import Mathlib

/-!
Shallow embedding of the calculated-column engine in `src/columnDataUtils.tsx`
(classes `ColumnCalculation`, `ColumnAggregator`, `ColumnData`, `DataTable`).

JavaScript runtime values are modelled explicitly: a JS number is a `JsNum`
(an exact rational together with the special values `NaN` and the two
infinities; the claims never exercise float rounding), a cell value is a
`Value` (string or number), and a JS object keyed by stringified row indices
is an association list `Rows` (JS enumerates integer-like keys in ascending
numeric order, which is the order our concretely-built lists use).
A thrown JS exception is modelled by `Option`/the `none` result of the
function in which the source can throw.
-/

namespace CalcCol

/-- Model of a JavaScript number: NaN, the infinities, or an exact rational.
The arithmetic the engine performs on the claims' inputs is exact, so no
floating-point rounding is modelled. -/
inductive JsNum where
  | nan
  | posInf
  | negInf
  | num (q : ℚ)
deriving DecidableEq, Repr

/-- Exact addition of rationals, written through `mkRat` so that it
evaluates inside the kernel (the library's `Rat.add` is irreducible):
`a + b = (a.num * b.den + b.num * a.den) / (a.den * b.den)`. -/
def ratAdd (a b : ℚ) : ℚ :=
  mkRat (a.num * Int.ofNat b.den + b.num * Int.ofNat a.den) (a.den * b.den)

/-- JS addition of numbers (`a + b`): NaN is absorbing, opposite infinities
give NaN, otherwise exact rational addition. -/
def jsAdd : JsNum → JsNum → JsNum
  | .nan, _ => .nan
  | _, .nan => .nan
  | .posInf, .negInf => .nan
  | .negInf, .posInf => .nan
  | .posInf, _ => .posInf
  | _, .posInf => .posInf
  | .negInf, _ => .negInf
  | _, .negInf => .negInf
  | .num a, .num b => .num (ratAdd a b)

/-- JS strict greater-than on numbers (`a > b`): any comparison with NaN is
false. -/
def jsGt : JsNum → JsNum → Bool
  | .nan, _ => false
  | _, .nan => false
  | .posInf, .posInf => false
  | .posInf, _ => true
  | .negInf, _ => false
  | .num _, .posInf => false
  | .num _, .negInf => true
  | .num a, .num b => decide (b < a)

/-- JS strict less-than on numbers (`a < b`): any comparison with NaN is
false. -/
def jsLt : JsNum → JsNum → Bool
  | .nan, _ => false
  | _, .nan => false
  | .negInf, .negInf => false
  | .negInf, _ => true
  | .posInf, _ => false
  | .num _, .negInf => false
  | .num _, .posInf => true
  | .num a, .num b => decide (a < b)

/-- Exact division of rationals, written through `mkRat` so that it
evaluates inside the kernel: `a / b = (a.num * b.den) / (a.den * b.num)`.
For `b = 0` it returns 0, but every use below guards that case. -/
def ratDiv (a b : ℚ) : ℚ :=
  let n := a.num * Int.ofNat b.den
  let d := a.den * b.num.natAbs
  if b.num < 0 then mkRat (-n) d else mkRat n d

/-- JS division of numbers (`a / b`), as used by the Average aggregation:
NaN is absorbing, `0/0` is NaN, division of a nonzero number by zero gives a
signed infinity, division by an infinity gives zero. -/
def jsDiv : JsNum → JsNum → JsNum
  | .nan, _ => .nan
  | _, .nan => .nan
  | .posInf, .posInf => .nan
  | .posInf, .negInf => .nan
  | .negInf, .posInf => .nan
  | .negInf, .negInf => .nan
  | .posInf, .num b => if b < 0 then .negInf else .posInf
  | .negInf, .num b => if b < 0 then .posInf else .negInf
  | .num _, .posInf => .num 0
  | .num _, .negInf => .num 0
  | .num a, .num b =>
      if b = 0 then (if a = 0 then .nan else if 0 < a then .posInf else .negInf)
      else .num (ratDiv a b)

/-- The character with code `48 + d`, i.e. the decimal digit `d` for
`d < 10`. -/
def digitChar (d : Nat) : Char := Char.ofNat (48 + d)

/-- Decimal digit characters of `n`, most significant first, computed with
explicit fuel so the definition is structural (the fuel `n + 1` always
suffices). -/
def natCharsAux : Nat → Nat → List Char
  | 0, _ => []
  | fuel + 1, n =>
      if n < 10 then [digitChar n]
      else natCharsAux fuel (n / 10) ++ [digitChar (n % 10)]

/-- Decimal string of a natural number, as JS prints integers. -/
def natStr (n : Nat) : String := ⟨natCharsAux (n + 1) n⟩

/-- String conversion of a JS number (`String(x)`). Integer values print
exactly as JS prints them; a non-integral rational (never produced on the
claims' inputs, where all arithmetic stays integral) is printed as
`num/den`, standing in for JS float formatting. -/
def jsNumToString : JsNum → String
  | .nan => "NaN"
  | .posInf => "Infinity"
  | .negInf => "-Infinity"
  | .num q =>
      (if q < 0 then "-" else "") ++ natStr q.num.natAbs ++
        (if q.den = 1 then "" else "/" ++ natStr q.den)

/-- A JS cell value: `string | number` in the source. -/
inductive Value where
  | str (s : String)
  | num (n : JsNum)
deriving DecidableEq, Repr

/-- JS `String(v)` / `v.toString()` on a cell value. -/
def valueToString : Value → String
  | .str s => s
  | .num n => jsNumToString n

/-- Digits of a character list read as a natural number, when the list is
nonempty and all digits. -/
def digitsToNat? (l : List Char) : Option Nat :=
  if l.isEmpty then none
  else if l.all Char.isDigit then
    some (l.foldl (fun n c => n * 10 + (c.toNat - 48)) 0)
  else none

/-- A decimal literal (digits, optionally with one point, at least one digit
somewhere) read as an exact rational. -/
def parseDec (l : List Char) : Option ℚ :=
  let intPart := l.takeWhile (fun c => c != '.')
  let rest := l.dropWhile (fun c => c != '.')
  match rest with
  | [] => (digitsToNat? intPart).map (fun n => mkRat (Int.ofNat n) 1)
  | _ :: frac =>
      if frac.any (fun c => c == '.') then none
      else if intPart.isEmpty && frac.isEmpty then none
      else if intPart.all Char.isDigit && frac.all Char.isDigit then
        some (ratAdd (mkRat (Int.ofNat (intPart.foldl
            (fun n c => n * 10 + (c.toNat - 48)) 0)) 1)
          (mkRat (Int.ofNat (frac.foldl
            (fun n c => n * 10 + (c.toNat - 48)) 0)) (10 ^ frac.length)))
      else none

/-- Drop leading and trailing spaces (the only whitespace the engine's
strings contain). -/
def trimChars (l : List Char) : List Char :=
  ((l.dropWhile (fun c => c = ' ')).reverse.dropWhile (fun c => c = ' ')).reverse

/-- JS `Number(s)` coercion of a string, restricted to the decimal fragment
(optional sign, decimal literal, the `Infinity` spellings, empty/blank is 0);
anything else is NaN.  Exponent and hex literals, which no claim exercises,
are not modelled. -/
def jsNumberOfString (s : String) : JsNum :=
  match trimChars s.data with
  | [] => .num 0
  | l =>
      let (neg, body) :=
        match l with
        | '-' :: r => (true, r)
        | '+' :: r => (false, r)
        | r => (false, r)
      if body = "Infinity".data then (if neg then .negInf else .posInf)
      else
        match parseDec body with
        | some q => .num (if neg then -q else q)
        | none => .nan

/-- JS `Number(v)` coercion of a cell value. -/
def jsNumber : Value → JsNum
  | .num n => n
  | .str s => jsNumberOfString s

/-! ## Row maps

A column's `rows` object maps stringified row indices to values.  JS
enumerates such integer-like keys in ascending numeric order, so the model
keeps an association list and inserts in ascending key position. -/

/-- A rows object: association list from row index to value. -/
abbrev Rows := List (Nat × Value)

/-- Read `rows[String(k)]`: the first entry with key `k`, if any. -/
def rowsGet : Rows → Nat → Option Value
  | [], _ => none
  | (k', v) :: rest, k => if k' = k then some v else rowsGet rest k

/-- Write `rows[String(k)] = v`: replace the first entry with key `k`, or
insert at the ascending-key position, mirroring JS integer-key enumeration
order. -/
def rowsSet : Rows → Nat → Value → Rows
  | [], k, v => [(k, v)]
  | (k', v') :: rest, k, v =>
      if k < k' then (k, v) :: (k', v') :: rest
      else if k = k' then (k, v) :: rest
      else (k', v') :: rowsSet rest k v

/-- `Object.keys(rows).reduce((max, current) => Number(current) > max ? Number(current) : max, 0)`
from `DataTable.compile`: the greatest key, or 0 when empty. -/
def rowsMaxKey (rows : Rows) : Nat :=
  rows.foldl (fun m kv => if kv.1 > m then kv.1 else m) 0

/-! ## ColumnCalculation -/

/-- State machine for the global regex scan `/#(.*?)#/g`: outside a match
(`none`) look for an opening `#`; inside a match (`some acc`) collect the
enclosed characters until the closing `#`.  An unclosed trailing `#` matches
nothing, like the regex. -/
def scanVarsAux : List Char → Option (List Char) → List String
  | [], _ => []
  | c :: rest, none =>
      if c = '#' then scanVarsAux rest (some []) else scanVarsAux rest none
  | c :: rest, some acc =>
      if c = '#' then (⟨acc⟩ : String) :: scanVarsAux rest none
      else scanVarsAux rest (some (acc ++ [c]))

/-- All `#`-delimited variable names of an expression, in match order, with
duplicates retained. -/
def scanVars (expression : String) : List String :=
  scanVarsAux expression.data none

/-- Collapse a list to its distinct members, keeping first occurrences in
order (a JS `Set` built by insertion). -/
def dedupKeepFirst : List String → List String
  | [] => []
  | x :: rest => x :: (dedupKeepFirst rest).filter (fun y => y != x)

/-- `ColumnCalculation.extractExpectedVariables`: the set of distinct
variable names wrapped in `#` characters inside the expression. -/
def extractExpectedVariables (expression : String) : List String :=
  dedupKeepFirst (scanVars expression)

/-- `ColumnCalculation`: an expression, the expected variables derived from
it, and the most recently provided variable assignment (the source field is
named `variables`, which Lean reserves). -/
structure ColumnCalculation where
  expression : String
  expectedVariables : List String
  vars : List (String × Value)
deriving DecidableEq, Repr

/-- The `ColumnCalculation` constructor: expected variables are extracted
from the expression, variables start empty. -/
def ColumnCalculation.new (expression : String) : ColumnCalculation :=
  ⟨expression, extractExpectedVariables expression, []⟩

/-- `ColumnCalculation.withVariables`: store the provided assignment. -/
def ColumnCalculation.withVariables (c : ColumnCalculation)
    (v : List (String × Value)) : ColumnCalculation :=
  { c with vars := v }

/-- Read `variables[name]` from the stored assignment. -/
def lookupVar (vars : List (String × Value)) (name : String) : Option Value :=
  (vars.find? (fun p => p.1 == name)).map (fun p => p.2)

/-- State machine for
`expression.replace(/#(.*?)#/g, match => variables[name].toString())`:
outside a match copy characters through; at a completed match substitute the
variable's string form, and return `none` when the name is absent from the
assignment (in JS `undefined.toString()` throws, caught by `calculate`).
An unclosed trailing `#` is copied unchanged, like the regex. -/
def replaceVarsAux (vars : List (String × Value)) :
    List Char → Option (List Char) → Option (List Char)
  | [], none => some []
  | [], some acc => some ('#' :: acc)
  | c :: rest, none =>
      if c = '#' then replaceVarsAux vars rest (some [])
      else (replaceVarsAux vars rest none).map (fun t => c :: t)
  | c :: rest, some acc =>
      if c = '#' then
        match lookupVar vars (⟨acc⟩ : String) with
        | some v => (replaceVarsAux vars rest none).map
            (fun t => (valueToString v).data ++ t)
        | none => none
      else replaceVarsAux vars rest (some (acc ++ [c]))

/-- `ColumnCalculation.replaceExpressionVariables`: the expression with every
delimited reference replaced by the string form of its variable; `none`
models the TypeError thrown on an unresolved name. -/
def ColumnCalculation.replaceExpressionVariables (c : ColumnCalculation) :
    Option String :=
  (replaceVarsAux c.vars c.expression.data none).map (fun l => (⟨l⟩ : String))

/-- `ColumnCalculation.calculate`, parameterised by the external math
evaluator `ev` (mathjs `evaluate` composed with `String`, where `none`
covers both a thrown evaluation error and an `undefined` result): failures
of substitution or evaluation collapse to the sentinel `"ERROR"`. -/
def ColumnCalculation.calculate (ev : String → Option String)
    (c : ColumnCalculation) : String :=
  match c.replaceExpressionVariables with
  | none => "ERROR"
  | some s =>
      match ev s with
      | none => "ERROR"
      | some r => r

/-- Split a character list on `+` separators. -/
def splitPlus : List Char → List (List Char)
  | [] => [[]]
  | c :: rest =>
      let r := splitPlus rest
      if c = '+' then [] :: r
      else match r with
        | [] => [[c]]
        | g :: gs => (c :: g) :: gs

/-- Parse one `+`-operand: a trimmed nonempty run of decimal digits. -/
def parsePlusOperand (l : List Char) : Option Nat := digitsToNat? (trimChars l)

/-- Modelled from the spec: the external math-expression evaluation
capability (mathjs `evaluate`, which is a library dependency and not part of
this repository's sources), restricted to sums of decimal natural numbers —
the only fragment the claims' expressions reach.  A blank expression yields
no result (mathjs returns `undefined` there) and an unparsable expression
yields `none` (mathjs throws). -/
def mathEvalModel (s : String) : Option String :=
  if trimChars s.data = [] then none
  else
    let parts := (splitPlus s.data).map parsePlusOperand
    if parts.all Option.isSome then
      some (natStr (parts.foldl (fun acc o => acc + o.getD 0) 0))
    else none

/-! ## ColumnAggregator -/

/-- The `ColumnAggregations` enum. -/
inductive ColumnAggregations where
  | None
  | Max
  | Average
  | Min
  | Sum
deriving DecidableEq, Repr

/-- The string value of a `ColumnAggregations` member, as rendered in the
aggregation display. -/
def ColumnAggregations.toDisplay : ColumnAggregations → String
  | .None => "None"
  | .Max => "Max"
  | .Average => "Average"
  | .Min => "Min"
  | .Sum => "Sum"

/-- `ColumnAggregator`: holds the aggregation operation to perform. -/
structure ColumnAggregator where
  operation : ColumnAggregations
deriving DecidableEq, Repr

/-- The rendered result of `ColumnAggregator.calculate`: either the empty
JSX fragment, or the element `<strong>{operation}: {result}</strong>`
carried as its operation string and result string. -/
inductive AggDisplay where
  | empty
  | strong (operation : String) (result : String)
deriving DecidableEq, Repr

/-- Reduction step of the Max aggregation:
`(max, value) => Number(value) > max ? Number(value) : max`. -/
def maxStep (m : JsNum) (value : Value) : JsNum :=
  if jsGt (jsNumber value) m then jsNumber value else m

/-- Reduction step of the Min aggregation:
`(min, value) => Number(value) < min ? Number(value) : min`. -/
def minStep (m : JsNum) (value : Value) : JsNum :=
  if jsLt (jsNumber value) m then jsNumber value else m

/-- Reduction step of the Sum and Average aggregations:
`(sum, value) => Number(value) + sum`. -/
def sumStep (s : JsNum) (value : Value) : JsNum :=
  jsAdd (jsNumber value) s

/-- `ColumnAggregator.calculate`: the assigned aggregation over the row
values (`Object.values(rows)`, i.e. the list of values in key order).  The
reduce steps never throw — `Number` coercion yields NaN instead — so the
source's catch branch (which would yield an `"ERROR"` result) has no
counterpart here. -/
def ColumnAggregator.calculate (a : ColumnAggregator) (rows : Rows) :
    AggDisplay :=
  match a.operation with
  | .Max =>
      let result := jsNumToString ((rows.map Prod.snd).foldl maxStep .negInf)
      let result := if result = "-Infinity" then "NaN" else result
      .strong a.operation.toDisplay result
  | .Min =>
      let result := jsNumToString ((rows.map Prod.snd).foldl minStep .posInf)
      let result := if result = "Infinity" then "NaN" else result
      .strong a.operation.toDisplay result
  | .Sum =>
      .strong a.operation.toDisplay
        (jsNumToString ((rows.map Prod.snd).foldl sumStep (.num 0)))
  | .Average =>
      .strong a.operation.toDisplay
        (jsNumToString (jsDiv ((rows.map Prod.snd).foldl sumStep (.num 0))
          (.num (mkRat (Int.ofNat (rows.map Prod.snd).length) 1))))
  | .None => .empty

/-! ## ColumnData -/

/-- The column type tag `"time" | "data" | "calculated" | ''`. -/
inductive ColumnType where
  | time
  | data
  | calculated
  | unset
deriving DecidableEq, Repr

/-- `ColumnData`: a column's identity, calculation, materialized rows and
aggregator. -/
structure ColumnData where
  columnName : String
  columnType : ColumnType
  columnId : String
  calculation : ColumnCalculation
  rows : Rows
  aggregation : ColumnAggregator
deriving DecidableEq, Repr

/-- The `ColumnData` constructor: empty rows, placeholder calculation (empty
expression) and `None` aggregation. -/
def ColumnData.new (columnName : String) (columnType : ColumnType)
    (columnId : String) : ColumnData :=
  ⟨columnName, columnType, columnId, ColumnCalculation.new "", [], ⟨.None⟩⟩

/-- `ColumnData.withCalculation`: replace the calculation. -/
def ColumnData.withCalculation (c : ColumnData)
    (calculation : ColumnCalculation) : ColumnData :=
  { c with calculation := calculation }

/-- `ColumnData.withAggregation`: replace the aggregator. -/
def ColumnData.withAggregation (c : ColumnData)
    (aggregation : ColumnAggregations) : ColumnData :=
  { c with aggregation := ⟨aggregation⟩ }

/-- `ColumnData.setRows`: replace the row mapping wholesale. -/
def ColumnData.setRows (c : ColumnData) (rows : Rows) : ColumnData :=
  { c with rows := rows }

/-- `ColumnData.fillCalculatedRow`: run the calculation with the supplied
variables and store the string result at `rowIndex` (the calculation object
keeps the supplied variables, as `withVariables` mutates it in the source). -/
def ColumnData.fillCalculatedRow (ev : String → Option String)
    (c : ColumnData) (rowIndex : Nat) (vars : List (String × Value)) :
    ColumnData :=
  let calcObj := c.calculation.withVariables vars
  { c with
      calculation := calcObj
      rows := rowsSet c.rows rowIndex (.str (calcObj.calculate ev)) }

/-- `ColumnData.getValue`: the stored value at `rowIndex` converted to
string, or the empty string when unset. -/
def ColumnData.getValue (c : ColumnData) (rowIndex : Nat) : String :=
  match rowsGet c.rows rowIndex with
  | some v => valueToString v
  | none => ""

/-- `ColumnData.getAggregation`: delegate to the aggregator over the full
current row mapping. -/
def ColumnData.getAggregation (c : ColumnData) : AggDisplay :=
  c.aggregation.calculate c.rows

/-! ## DataTable -/

/-- `DataTable`: the raw input data (column index to rows object, a JS
object accessed only by key, modelled as a function), the ordered column
list, the derived name-to-index mapping, and the compile-derived row extent
and aggregation flag. -/
structure DataTable where
  columns : List ColumnData
  data : Nat → Option Rows
  columnNameToIndexMapping : String → Option Nat
  maxRow : Nat
  isThereColumnAggregations : Bool

/-- The `DataTable` constructor. -/
def DataTable.new (data : Nat → Option Rows) : DataTable :=
  ⟨[], data, fun _ => none, 0, false⟩

/-- Forward loop of `updateColumnNameToIndexMapping`: assign each column
name its index, a later assignment overwriting an earlier one. -/
def buildMappingAux : List ColumnData → Nat → (String → Option Nat) →
    (String → Option Nat)
  | [], _, m => m
  | c :: rest, i, m =>
      buildMappingAux rest (i + 1)
        (fun name => if name = c.columnName then some i else m name)

/-- `updateColumnNameToIndexMapping` as a function of the column list. -/
def buildMapping (columns : List ColumnData) : String → Option Nat :=
  buildMappingAux columns 0 (fun _ => none)

/-- `DataTable.addColumns`: append the new columns and rebuild the
name-to-index mapping. -/
def DataTable.addColumns (t : DataTable) (columns : List ColumnData) :
    DataTable :=
  let cols := t.columns ++ columns
  { t with columns := cols, columnNameToIndexMapping := buildMapping cols }

/-- Loop body of `getCalculationVariables` over the expected-variable names:
resolve each name through the mapping and read that column's value at the
row.  A name the mapping does not know is skipped.  When the mapping is
consistent with the column list — as `addColumns` maintains and every
theorem below assumes or establishes — the resolved index is always in
range; on an out-of-range index the source would throw, and the `none`
branch here is unreachable under that consistency. -/
def getCalcVarsAux (mapping : String → Option Nat) (cols : List ColumnData)
    (rowIndex : Nat) : List String → List (String × Value) →
    List (String × Value)
  | [], vars => vars
  | name :: rest, vars =>
      match mapping name with
      | some j =>
          match cols[j]? with
          | some c =>
              getCalcVarsAux mapping cols rowIndex rest
                (vars ++ [(name, .str (c.getValue rowIndex))])
          | none => getCalcVarsAux mapping cols rowIndex rest vars
      | none => getCalcVarsAux mapping cols rowIndex rest vars

/-- `DataTable.getCalculationVariables`: collect the variables expected by
the column's calculation from the sibling columns with those names. -/
def DataTable.getCalculationVariables (t : DataTable) (rowIndex : Nat)
    (column : ColumnData) : List (String × Value) :=
  getCalcVarsAux t.columnNameToIndexMapping t.columns rowIndex
    column.calculation.expectedVariables []

/-- First loop of `compile`: walk the columns in order, assign the raw rows
bound to each position, and fold the running maximum populated row index. -/
def compileSetRows (data : Nat → Option Rows) :
    List ColumnData → Nat → Nat → List ColumnData × Nat
  | [], _, maxRow => ([], maxRow)
  | c :: rest, i, maxRow =>
      match data i with
      | some rows =>
          let newMaxRow := rowsMaxKey rows
          let maxRow := if newMaxRow > maxRow then newMaxRow else maxRow
          let (rest, m) := compileSetRows data rest (i + 1) maxRow
          (c.setRows rows :: rest, m)
      | none =>
          let (rest, m) := compileSetRows data rest (i + 1) maxRow
          (c :: rest, m)

/-- Row loop of `compile` for one calculated column: for each row index in
turn, gather the calculation variables from the live column list and fill
that row of column `j`. -/
def fillColumnRows (ev : String → Option String)
    (mapping : String → Option Nat) (j : Nat) :
    List ColumnData → List Nat → List ColumnData
  | cols, [] => cols
  | cols, r :: rs =>
      match cols[j]? with
      | some col =>
          fillColumnRows ev mapping j
            (cols.set j (col.fillCalculatedRow ev r
              (getCalcVarsAux mapping cols r
                col.calculation.expectedVariables []))) rs
      | none => fillColumnRows ev mapping j cols rs

/-- Second loop of `compile`: walk the columns in order, noting whether any
aggregation is present and filling every row of each calculated column. -/
def compileColumnsLoop (ev : String → Option String)
    (mapping : String → Option Nat) (maxRow : Nat) :
    List ColumnData → Bool → List Nat → List ColumnData × Bool
  | cols, flag, [] => (cols, flag)
  | cols, flag, j :: js =>
      match cols[j]? with
      | some col =>
          let flag := flag || decide (col.aggregation.operation ≠ .None)
          let cols :=
            if col.columnType = .calculated then
              fillColumnRows ev mapping j cols (List.range (maxRow + 1))
            else cols
          compileColumnsLoop ev mapping maxRow cols flag js
      | none => compileColumnsLoop ev mapping maxRow cols flag js

/-- `DataTable.compile`, parameterised by the external math evaluator:
reset and rederive the row extent while assigning raw rows to columns, then
rederive the aggregation flag and recompute every calculated column's rows
from 0 through the row extent. -/
def DataTable.compile (ev : String → Option String) (t : DataTable) :
    DataTable :=
  let (cols, maxRow) := compileSetRows t.data t.columns 0 0
  let (cols, flag) := compileColumnsLoop ev t.columnNameToIndexMapping maxRow
    cols false (List.range cols.length)
  { t with
      columns := cols
      maxRow := maxRow
      isThereColumnAggregations := flag }

/-- A rendered cell: a plain string or a JSX element (the latter only ever
an aggregation display). -/
inductive Cell where
  | str (s : String)
  | elem (e : AggDisplay)
deriving DecidableEq, Repr

/-- `DataTable.getValue`: the aggregation display of the column when the row
index exceeds the row extent, else the column's per-row value.  The result
is `none` exactly when `columnIndex` is outside the column list, where the
source dereferences `undefined` and throws a TypeError. -/
def DataTable.getValue? (t : DataTable) (rowIndex columnIndex : Nat) :
    Option Cell :=
  match t.columns[columnIndex]? with
  | some col =>
      if rowIndex > t.maxRow then some (.elem col.getAggregation)
      else some (.str (col.getValue rowIndex))
  | none => none

/-- `DataTable.getRowsToRender`: one display row beyond the row extent, plus
one more when any column carries an aggregation. -/
def DataTable.getRowsToRender (t : DataTable) : Nat :=
  if t.isThereColumnAggregations then t.maxRow + 2 else t.maxRow + 1

/-! ## Concrete tables used by the claims -/

/-- The raw data of the spec's end-to-end scenario:
`{"0": {"0": 10, "1": 20}, "1": {"0": 100, "1": 200}}`. -/
def exampleData : Nat → Option Rows := fun i =>
  if i = 0 then some [(0, .num (.num 10)), (1, .num (.num 20))]
  else if i = 1 then some [(0, .num (.num 100)), (1, .num (.num 200))]
  else none

/-- The spec's end-to-end scenario table: data columns Density and Volume,
and the calculated column Total with expression `#Density# + #Volume#`. -/
def exampleTable : DataTable :=
  (DataTable.new exampleData).addColumns
    [ColumnData.new "Density" .data "c0",
     ColumnData.new "Volume" .data "c1",
     (ColumnData.new "Total" .calculated "c2").withCalculation
       (ColumnCalculation.new "#Density# + #Volume#")]

/-- A table with no raw data whose first calculated column references the
second calculated column, declared after it in list order. -/
def chainTable : DataTable :=
  (DataTable.new (fun _ => none)).addColumns
    [(ColumnData.new "A" .calculated "a").withCalculation
       (ColumnCalculation.new "#B#"),
     (ColumnData.new "B" .calculated "b").withCalculation
       (ColumnCalculation.new "1+1")]

/-- A one-column table: a single data column bound to a raw-data slot with
a single row. -/
def singleTable : DataTable :=
  (DataTable.new (fun i =>
      if i = 0 then some [(0, .num (.num 7))] else none)).addColumns
    [ColumnData.new "X" .data "x"]

/-! ## Claim C8: variable extraction -/

/-- C8.  Variable extraction returns the set of distinct names enclosed in
`#` pairs, duplicates collapsed and positions discarded: extracting from
`"#A# + #B# * #A#"` yields exactly the set containing `"A"` and `"B"`, and
extracting from `"1+2"`, which has no delimited substrings, yields the empty
set. -/
theorem extract_distinct_names :
    (∀ s, s ∈ extractExpectedVariables "#A# + #B# * #A#" ↔ (s = "A" ∨ s = "B")) ∧
    (extractExpectedVariables "#A# + #B# * #A#").Nodup ∧
    extractExpectedVariables "1+2" = [] := by
  refine ⟨?_, by decide, by decide⟩
  intro s
  have h : extractExpectedVariables "#A# + #B# * #A#" = ["A", "B"] := by decide
  rw [h]
  simp

/-! ## Claim C9: variable substitution -/

/-- C9.  Substitution replaces each marker-delimited reference with the
string form of the variable's value: on the expression `"#X# + 1"` with the
assignment sending X to the number 5, the substituted string produced before
evaluation is exactly `"5 + 1"`. -/
theorem substitution_produces_replaced_expression :
    ((ColumnCalculation.new "#X# + 1").withVariables
        [("X", Value.num (JsNum.num 5))]).replaceExpressionVariables =
      some "5 + 1" := by decide

/-! ## Claim C5: aggregation edge cases -/

/-- C5.  Aggregation edge cases: Max over an empty row mapping displays
`"NaN"` (not `"-Infinity"`), Min over an empty mapping displays `"NaN"`
(not `"Infinity"`), Sum over an empty mapping displays `"0"`, and Average
over a two-row mapping holding 2 and 4 displays `"3"`. -/
theorem aggregation_edge_cases :
    ColumnAggregator.calculate ⟨.Max⟩ [] = .strong "Max" "NaN" ∧
    ColumnAggregator.calculate ⟨.Min⟩ [] = .strong "Min" "NaN" ∧
    ColumnAggregator.calculate ⟨.Sum⟩ [] = .strong "Sum" "0" ∧
    ColumnAggregator.calculate ⟨.Average⟩
        [(0, .num (.num 2)), (1, .num (.num 4))] = .strong "Average" "3" := by
  exact ⟨by decide, by decide, by decide, by decide⟩

/-! ## Claim C4: end-to-end scenario -/

/-- C4.  For the table built from the raw data
`{"0": {"0": 10, "1": 20}, "1": {"0": 100, "1": 200}}` with data columns
Density and Volume and calculated column Total with expression
`#Density# + #Volume#`, after `compile()` the cell (0,2) reads `"110"` and
the cell (1,2) reads `"220"`. -/
theorem end_to_end_scenario :
    (exampleTable.compile mathEvalModel).getValue? 0 2 = some (.str "110") ∧
    (exampleTable.compile mathEvalModel).getValue? 1 2 = some (.str "220") := by
  exact ⟨by decide, by decide⟩

/-! ## Claim C2 (corrected): the read boundary -/

/-- C2, counterexample to the claim as stated.  `DataTable.getValue` does
not return a value for every (rowIndex, columnIndex): at column index 3 of
the compiled three-column example table the source dereferences an
`undefined` column and throws a TypeError, modelled by the `none` result. -/
theorem getValue_out_of_range_column_raises :
    (exampleTable.compile mathEvalModel).getValue? 0 3 = none := by decide

/-- C2, amended.  `ColumnData.getValue` is total: it returns the stored
value converted to string, or the empty string when the row is unset, and
never raises.  `DataTable.getValue` returns a value without raising exactly
when the column index is within the column list; beyond it, the lookup
throws. -/
theorem read_boundary_never_raises :
    (∀ (t : DataTable) (r c : Nat), c < t.columns.length →
      (t.getValue? r c).isSome = true) ∧
    (∀ (t : DataTable) (r c : Nat), t.columns.length ≤ c →
      t.getValue? r c = none) ∧
    (∀ (col : ColumnData) (r : Nat) (v : Value),
      rowsGet col.rows r = some v → col.getValue r = valueToString v) ∧
    (∀ (col : ColumnData) (r : Nat),
      rowsGet col.rows r = none → col.getValue r = "") := by
  refine ⟨?_, ?_, ?_, ?_⟩
  · intro t r c hc
    have h : t.columns[c]? = some (t.columns[c]) := List.getElem?_eq_getElem hc
    unfold DataTable.getValue?
    rw [h]
    by_cases hr : r > t.maxRow <;> simp [hr]
  · intro t r c hc
    have h : t.columns[c]? = none := List.getElem?_eq_none_iff.mpr hc
    unfold DataTable.getValue?
    rw [h]
  · intro col r v hv
    unfold ColumnData.getValue
    rw [hv]
  · intro col r hv
    unfold ColumnData.getValue
    rw [hv]

/-- C2, witness for the amended theorem at the compiled one-column table,
row 0 and column 0, and at its first column's stored and unset rows. -/
theorem read_boundary_never_raises_witness :
    0 < (singleTable.compile mathEvalModel).columns.length ∧
    ((singleTable.compile mathEvalModel).getValue? 0 0).isSome = true ∧
    (singleTable.compile mathEvalModel).getValue? 0 1 = none := by
  refine ⟨by decide, ?_, ?_⟩
  · exact read_boundary_never_raises.1 (singleTable.compile mathEvalModel) 0 0
      (by decide)
  · exact read_boundary_never_raises.2.1 (singleTable.compile mathEvalModel) 0 1
      (by decide)

/-! ## Claim C7: the aggregation row -/

/-- C7.  On a compiled table, reading any row index beyond the row extent of
a valid column returns that column's aggregation display, and reading a row
index within the extent returns the column's per-row value. -/
theorem getValue_renders_aggregation_row (ev : String → Option String)
    (t : DataTable) (c : Nat) (col : ColumnData)
    (hcol : (t.compile ev).columns[c]? = some col) :
    ∀ r : Nat,
      (r > (t.compile ev).maxRow →
        (t.compile ev).getValue? r c = some (.elem col.getAggregation)) ∧
      (r ≤ (t.compile ev).maxRow →
        (t.compile ev).getValue? r c = some (.str (col.getValue r))) := by
  intro r
  unfold DataTable.getValue?
  rw [hcol]
  dsimp only
  constructor
  · intro hr
    rw [if_pos hr]
  · intro hr
    rw [if_neg (by omega)]

/-- C7, witness at the compiled one-column table: row 1 is past the row
extent 0 and renders the aggregation display (empty, since the column's
aggregation is None), row 0 renders the stored value `"7"`. -/
theorem getValue_renders_aggregation_row_witness :
    (singleTable.compile mathEvalModel).getValue? 1 0 =
        some (.elem .empty) ∧
    (singleTable.compile mathEvalModel).getValue? 0 0 =
        some (.str "7") := by
  have h := getValue_renders_aggregation_row mathEvalModel singleTable 0
    ((ColumnData.new "X" ColumnType.data "x").setRows
      [(0, Value.num (JsNum.num 7))]) (by decide)
  refine ⟨?_, ?_⟩
  · have h1 := (h 1).1 (by decide)
    rw [h1]
    decide
  · have h0 := (h 0).2 (by decide)
    rw [h0]
    decide

/-! ## Claim C3: unresolved variables collapse to the sentinel -/

theorem mem_dedupKeepFirst (x : String) :
    ∀ l : List String, x ∈ dedupKeepFirst l ↔ x ∈ l := by
  intro l
  induction l with
  | nil => simp [dedupKeepFirst]
  | cons y rest ih =>
      simp only [dedupKeepFirst, List.mem_cons, List.mem_filter, ih, bne_iff_ne]
      by_cases hxy : x = y <;> simp [hxy]

theorem replaceVarsAux_none_of_unresolved (vars : List (String × Value)) :
    ∀ (l : List Char) (st : Option (List Char)),
      (∃ name, name ∈ scanVarsAux l st ∧ lookupVar vars name = none) →
      replaceVarsAux vars l st = none := by
  intro l
  induction l with
  | nil =>
      rintro st ⟨name, hmem, -⟩
      simp [scanVarsAux] at hmem
  | cons c rest ih =>
      rintro st ⟨name, hmem, hlook⟩
      cases st with
      | none =>
          by_cases hc : c = '#'
          · rw [scanVarsAux, if_pos hc] at hmem
            rw [replaceVarsAux, if_pos hc]
            exact ih (some []) ⟨name, hmem, hlook⟩
          · rw [scanVarsAux, if_neg hc] at hmem
            rw [replaceVarsAux, if_neg hc, ih none ⟨name, hmem, hlook⟩]
            rfl
      | some acc =>
          by_cases hc : c = '#'
          · rw [scanVarsAux, if_pos hc] at hmem
            rw [replaceVarsAux, if_pos hc]
            rcases List.mem_cons.mp hmem with rfl | hmem
            · rw [hlook]
            · cases hlv : lookupVar vars (⟨acc⟩ : String) with
              | none => rfl
              | some v => rw [ih none ⟨name, hmem, hlook⟩]; rfl
          · rw [scanVarsAux, if_neg hc] at hmem
            rw [replaceVarsAux, if_neg hc]
            exact ih (some (acc ++ [c])) ⟨name, hmem, hlook⟩

/-- C3.  If an expression contains a delimited variable reference whose name
is absent from the supplied assignment, evaluation after `withVariables`
returns the sentinel `"ERROR"` (the source throws on the absent key and the
catch in `calculate` converts it), for any external evaluator. -/
theorem calculate_unresolved_variable_error (ev : String → Option String)
    (expression : String) (vars : List (String × Value)) (name : String)
    (hmem : name ∈ extractExpectedVariables expression)
    (habs : lookupVar vars name = none) :
    ((ColumnCalculation.new expression).withVariables vars).calculate ev =
      "ERROR" := by
  have hscan : name ∈ scanVarsAux expression.data none :=
    (mem_dedupKeepFirst name (scanVars expression)).mp hmem
  have hrep : replaceVarsAux vars expression.data none = none :=
    replaceVarsAux_none_of_unresolved vars expression.data none
      ⟨name, hscan, habs⟩
  unfold ColumnCalculation.calculate ColumnCalculation.replaceExpressionVariables
  simp [ColumnCalculation.new, ColumnCalculation.withVariables, hrep]

/-- C3, witness: `"#Z#"` expects the variable Z, the empty assignment does
not resolve it, and evaluation returns `"ERROR"`. -/
theorem calculate_unresolved_variable_error_witness :
    "Z" ∈ extractExpectedVariables "#Z#" ∧ lookupVar [] "Z" = none ∧
    ((ColumnCalculation.new "#Z#").withVariables []).calculate mathEvalModel =
      "ERROR" :=
  ⟨by decide, by decide,
    calculate_unresolved_variable_error mathEvalModel "#Z#" [] "Z"
      (by decide) (by decide)⟩

/-! ## Claim C10: aggregation cannot reach its error branch -/

theorem digitChar_isDigit (d : Nat) (h : d < 10) :
    (digitChar d).isDigit = true := by
  interval_cases d <;> decide

theorem natCharsAux_isDigit :
    ∀ (fuel n : Nat) (c : Char), c ∈ natCharsAux fuel n → c.isDigit = true := by
  intro fuel
  induction fuel with
  | zero => intro n c hc; simp [natCharsAux] at hc
  | succ fuel ih =>
      intro n c hc
      unfold natCharsAux at hc
      by_cases h : n < 10
      · rw [if_pos h] at hc
        rcases List.mem_singleton.mp hc with rfl
        exact digitChar_isDigit n h
      · rw [if_neg h] at hc
        rcases List.mem_append.mp hc with h1 | h2
        · exact ih _ _ h1
        · rcases List.mem_singleton.mp h2 with rfl
          exact digitChar_isDigit _ (Nat.mod_lt _ (by omega))

theorem jsNumToString_ne_error (x : JsNum) : jsNumToString x ≠ "ERROR" := by
  cases x with
  | nan => decide
  | posInf => decide
  | negInf => decide
  | num q =>
      intro h
      have hE : 'E' ∈ (jsNumToString (JsNum.num q)).data := by rw [h]; decide
      unfold jsNumToString at hE
      rw [String.data_append, String.data_append] at hE
      rcases List.mem_append.mp hE with h1 | h2
      · rcases List.mem_append.mp h1 with h1a | h1b
        · by_cases hq : q < 0
          · rw [if_pos hq] at h1a
            exact absurd h1a (by decide)
          · rw [if_neg hq] at h1a
            exact absurd h1a (by decide)
        · exact absurd (natCharsAux_isDigit _ _ _ h1b) (by decide)
      · by_cases hden : q.den = 1
        · rw [if_pos hden] at h2
          exact absurd h2 (by decide)
        · rw [if_neg hden] at h2
          rw [String.data_append] at h2
          rcases List.mem_append.mp h2 with h2a | h2b
          · exact absurd h2a (by decide)
          · exact absurd (natCharsAux_isDigit _ _ _ h2b) (by decide)

theorem jsAdd_nan_left (x : JsNum) : jsAdd .nan x = .nan := by
  cases x <;> rfl

theorem jsAdd_nan_right (x : JsNum) : jsAdd x .nan = .nan := by
  cases x <;> rfl

theorem foldl_sumStep_nan_absorb : ∀ l : List Value, l.foldl sumStep .nan = .nan := by
  intro l
  induction l with
  | nil => rfl
  | cons w rest ih =>
      have hstep : sumStep .nan w = .nan := jsAdd_nan_right (jsNumber w)
      simp only [List.foldl_cons, hstep, ih]

theorem foldl_sumStep_of_mem_nan :
    ∀ (l : List Value) (acc : JsNum) (v : Value), v ∈ l → jsNumber v = .nan →
      l.foldl sumStep acc = .nan := by
  intro l
  induction l with
  | nil => intro acc v hv; cases hv
  | cons w rest ih =>
      intro acc v hv hnan
      rcases List.mem_cons.mp hv with rfl | hv
      · have hstep : sumStep acc v = .nan := by
          unfold sumStep
          rw [hnan]
          exact jsAdd_nan_left acc
        simp only [List.foldl_cons, hstep, foldl_sumStep_nan_absorb]
      · exact ih _ v hv hnan

/-- C10.  The aggregator's catch branch is unreachable: no operation ever
produces the `"ERROR"` result string, a mapping containing a value that
coerces to NaN makes Sum and Average display `"NaN"`, and the Max and Min
reduction steps skip a NaN-coercing value. -/
theorem aggregation_never_error :
    (∀ (op : ColumnAggregations) (rows : Rows) (o s : String),
      ColumnAggregator.calculate ⟨op⟩ rows = .strong o s → s ≠ "ERROR") ∧
    (∀ rows : Rows, (∃ kv ∈ rows, jsNumber kv.2 = .nan) →
      ColumnAggregator.calculate ⟨.Sum⟩ rows = .strong "Sum" "NaN" ∧
      ColumnAggregator.calculate ⟨.Average⟩ rows = .strong "Average" "NaN") ∧
    (∀ (m : JsNum) (v : Value), jsNumber v = .nan →
      maxStep m v = m ∧ minStep m v = m) := by
  refine ⟨?_, ?_, ?_⟩
  · intro op rows o s h
    cases op with
    | None => simp [ColumnAggregator.calculate] at h
    | Max =>
        simp only [ColumnAggregator.calculate, AggDisplay.strong.injEq] at h
        rcases h with ⟨-, rfl⟩
        by_cases hinf :
            jsNumToString ((rows.map Prod.snd).foldl maxStep .negInf) = "-Infinity"
        · rw [if_pos hinf]; decide
        · rw [if_neg hinf]; exact jsNumToString_ne_error _
    | Min =>
        simp only [ColumnAggregator.calculate, AggDisplay.strong.injEq] at h
        rcases h with ⟨-, rfl⟩
        by_cases hinf :
            jsNumToString ((rows.map Prod.snd).foldl minStep .posInf) = "Infinity"
        · rw [if_pos hinf]; decide
        · rw [if_neg hinf]; exact jsNumToString_ne_error _
    | Sum =>
        simp only [ColumnAggregator.calculate, AggDisplay.strong.injEq] at h
        rcases h with ⟨-, rfl⟩
        exact jsNumToString_ne_error _
    | Average =>
        simp only [ColumnAggregator.calculate, AggDisplay.strong.injEq] at h
        rcases h with ⟨-, rfl⟩
        exact jsNumToString_ne_error _
  · rintro rows ⟨kv, hkv, hnan⟩
    have hval : kv.2 ∈ rows.map Prod.snd := List.mem_map_of_mem Prod.snd hkv
    have hsum : (rows.map Prod.snd).foldl sumStep (.num 0) = .nan :=
      foldl_sumStep_of_mem_nan _ _ _ hval hnan
    constructor
    · simp only [ColumnAggregator.calculate, hsum]
      rfl
    · simp only [ColumnAggregator.calculate, hsum]
      rfl
  · intro m v hnan
    constructor
    · unfold maxStep
      rw [hnan]
      cases m <;> rfl
    · unfold minStep
      rw [hnan]
      cases m <;> rfl

/-- C10, witness: the string `"abc"` coerces to NaN, Sum over a mapping
containing it displays `"NaN"` (never `"ERROR"`), the Max step skips it, and
the Max display over the empty mapping is not the error sentinel. -/
theorem aggregation_never_error_witness :
    jsNumber (Value.str "abc") = JsNum.nan ∧
    ColumnAggregator.calculate ⟨.Sum⟩
        [(0, Value.str "abc"), (1, Value.num (JsNum.num 3))] =
      .strong "Sum" "NaN" ∧
    maxStep (JsNum.num 3) (Value.str "abc") = JsNum.num 3 ∧
    "NaN" ≠ "ERROR" :=
  ⟨by decide,
    (aggregation_never_error.2.1
      [(0, Value.str "abc"), (1, Value.num (JsNum.num 3))]
      ⟨(0, Value.str "abc"), by decide, by decide⟩).1,
    (aggregation_never_error.2.2 (JsNum.num 3) (Value.str "abc") (by decide)).1,
    aggregation_never_error.1 .Max [] "Max" "NaN" (by decide)⟩

/-! ## Characterizing the compile pass

`compileSetRows` is split into its two effects — `applyData`, the pointwise
assignment of raw rows to columns, and `maxRowSpec`, the derived row extent —
and the second loop is characterized through the parts of a column it can
never change (its `Skel`). -/

/-- The first compile loop's effect on the column list: each column in turn
receives the raw rows bound to its position, if any. -/
def applyData (data : Nat → Option Rows) : List ColumnData → Nat → List ColumnData
  | [], _ => []
  | c :: rest, i =>
      (match data i with
       | some rows => c.setRows rows
       | none => c) :: applyData data rest (i + 1)

/-- The first compile loop's derived row extent: the running maximum of
`rowsMaxKey` over the raw data bound to `n` consecutive positions from `i`,
starting from `m`. -/
def maxRowSpec (data : Nat → Option Rows) : Nat → Nat → Nat → Nat
  | 0, _, m => m
  | n + 1, i, m =>
      maxRowSpec data n (i + 1)
        (match data i with
         | some rows => if rowsMaxKey rows > m then rowsMaxKey rows else m
         | none => m)

theorem compileSetRows_eq (data : Nat → Option Rows) :
    ∀ (cols : List ColumnData) (i m : Nat),
      compileSetRows data cols i m =
        (applyData data cols i, maxRowSpec data cols.length i m) := by
  intro cols
  induction cols with
  | nil => intro i m; rfl
  | cons c rest ih =>
      intro i m
      simp only [compileSetRows, applyData, List.length_cons, maxRowSpec]
      cases hdata : data i with
      | some rows => simp only [ih]
      | none => simp only [ih]

theorem applyData_length (data : Nat → Option Rows) :
    ∀ (cols : List ColumnData) (i : Nat),
      (applyData data cols i).length = cols.length := by
  intro cols
  induction cols with
  | nil => intro i; rfl
  | cons c rest ih => intro i; simp only [applyData, List.length_cons, ih]

theorem applyData_getElem? (data : Nat → Option Rows) :
    ∀ (cols : List ColumnData) (i k : Nat),
      (applyData data cols i)[k]? =
        (cols[k]?).map (fun c =>
          match data (i + k) with
          | some rows => c.setRows rows
          | none => c) := by
  intro cols
  induction cols with
  | nil => intro i k; rfl
  | cons c rest ih =>
      intro i k
      cases k with
      | zero => simp [applyData]
      | succ k =>
          simp only [applyData, List.getElem?_cons_succ, ih]
          have : i + (k + 1) = i + 1 + k := by omega
          rw [this]

/-- The behaviour-determining parts of a column that the second compile loop
can never change. -/
structure Skel where
  columnName : String
  columnType : ColumnType
  aggregationOp : ColumnAggregations
  expression : String
  expectedVariables : List String
deriving DecidableEq, Repr

/-- Project a column to its loop-invariant skeleton. -/
def skel (c : ColumnData) : Skel :=
  ⟨c.columnName, c.columnType, c.aggregation.operation,
    c.calculation.expression, c.calculation.expectedVariables⟩

theorem skel_fillCalculatedRow (ev : String → Option String) (c : ColumnData)
    (r : Nat) (vars : List (String × Value)) :
    skel (c.fillCalculatedRow ev r vars) = skel c := rfl

theorem skel_setRows (c : ColumnData) (rows : Rows) :
    skel (c.setRows rows) = skel c := rfl

theorem set_getElem?_eq_self {α : Type} :
    ∀ (l : List α) (j : Nat) (a : α), l[j]? = some a → l.set j a = l := by
  intro l
  induction l with
  | nil => intro j a h; cases h
  | cons x rest ih =>
      intro j a h
      cases j with
      | zero =>
          rw [List.getElem?_cons_zero, Option.some_inj] at h
          rw [List.set_cons_zero, h]
      | succ j =>
          rw [List.getElem?_cons_succ] at h
          rw [List.set_cons_succ, ih j a h]

theorem applyData_map_skel (data : Nat → Option Rows) :
    ∀ (cols : List ColumnData) (i : Nat),
      (applyData data cols i).map skel = cols.map skel := by
  intro cols
  induction cols with
  | nil => intro i; rfl
  | cons c rest ih =>
      intro i
      simp only [applyData, List.map_cons, ih]
      cases data i <;> rfl

theorem fillColumnRows_map_skel (ev : String → Option String)
    (M : String → Option Nat) (j : Nat) :
    ∀ (rs : List Nat) (cols : List ColumnData),
      (fillColumnRows ev M j cols rs).map skel = cols.map skel := by
  intro rs
  induction rs with
  | nil => intro cols; rfl
  | cons r rs ih =>
      intro cols
      unfold fillColumnRows
      cases hj : cols[j]? with
      | none => exact ih cols
      | some col =>
          rw [ih]
          rw [List.map_set]
          rw [skel_fillCalculatedRow]
          apply set_getElem?_eq_self
          rw [List.getElem?_map, hj]
          rfl

theorem compileColumnsLoop_map_skel (ev : String → Option String)
    (M : String → Option Nat) (R : Nat) :
    ∀ (js : List Nat) (cols : List ColumnData) (flag : Bool),
      ((compileColumnsLoop ev M R cols flag js).1).map skel = cols.map skel := by
  intro js
  induction js with
  | nil => intro cols flag; rfl
  | cons j js ih =>
      intro cols flag
      unfold compileColumnsLoop
      cases hj : cols[j]? with
      | none => exact ih cols flag
      | some col =>
          dsimp only
          by_cases hcalc : col.columnType = .calculated
          · rw [if_pos hcalc]
            rw [ih, fillColumnRows_map_skel]
          · rw [if_neg hcalc]
            exact ih cols _

theorem aggOp_match_eq_of_map_skel (cols cols' : List ColumnData)
    (h : cols.map skel = cols'.map skel) (j : Nat) :
    (match cols[j]? with
     | some c => decide (c.aggregation.operation ≠ ColumnAggregations.None)
     | none => false) =
    (match cols'[j]? with
     | some c => decide (c.aggregation.operation ≠ ColumnAggregations.None)
     | none => false) := by
  have hmap : (cols[j]?).map skel = (cols'[j]?).map skel := by
    rw [← List.getElem?_map, ← List.getElem?_map, h]
  cases h1 : cols[j]? with
  | none =>
      rw [h1] at hmap
      cases h2 : cols'[j]? with
      | none => rfl
      | some c => rw [h2] at hmap; cases hmap
  | some c =>
      rw [h1] at hmap
      cases h2 : cols'[j]? with
      | none => rw [h2] at hmap; cases hmap
      | some c' =>
          rw [h2] at hmap
          have hsk : skel c = skel c' := by simpa using hmap
          have hop : c.aggregation.operation = c'.aggregation.operation :=
            congrArg Skel.aggregationOp hsk
          dsimp only
          rw [hop]

theorem list_any_congr {α : Type} (p q : α → Bool) :
    ∀ l : List α, (∀ a ∈ l, p a = q a) → l.any p = l.any q := by
  intro l
  induction l with
  | nil => intro h; rfl
  | cons x rest ih =>
      intro h
      rw [List.any_cons, List.any_cons, h x (List.mem_cons_self x rest),
        ih (fun a ha => h a (List.mem_cons_of_mem x ha))]

theorem compileColumnsLoop_flag (ev : String → Option String)
    (M : String → Option Nat) (R : Nat) :
    ∀ (js : List Nat) (cols : List ColumnData) (flag : Bool),
      (compileColumnsLoop ev M R cols flag js).2 =
        (flag || js.any (fun j =>
          match cols[j]? with
          | some c => decide (c.aggregation.operation ≠ .None)
          | none => false)) := by
  intro js
  induction js with
  | nil => intro cols flag; simp [compileColumnsLoop]
  | cons j js ih =>
      intro cols flag
      unfold compileColumnsLoop
      cases hj : cols[j]? with
      | none =>
          rw [ih, List.any_cons]
          simp only [hj]
          rw [Bool.false_or]
      | some col =>
          try dsimp only
          set cols' := if col.columnType = .calculated then
            fillColumnRows ev M j cols (List.range (R + 1)) else cols with hcols'
          have hskel : cols'.map skel = cols.map skel := by
            rw [hcols']
            by_cases hcalc : col.columnType = .calculated
            · rw [if_pos hcalc, fillColumnRows_map_skel]
            · rw [if_neg hcalc]
          rw [ih, List.any_cons]
          have hany : (js.any (fun j' =>
              match cols'[j']? with
              | some c => decide (c.aggregation.operation ≠ .None)
              | none => false)) =
            (js.any (fun j' =>
              match cols[j']? with
              | some c => decide (c.aggregation.operation ≠ .None)
              | none => false)) :=
            list_any_congr _ _ js
              (fun j' _ => aggOp_match_eq_of_map_skel cols' cols hskel j')
          rw [hany]
          simp only [hj]
          rw [Bool.or_assoc]

/-- The whole compile pass, written through `applyData`, `maxRowSpec` and
the second loop. -/
theorem compile_eq (ev : String → Option String) (t : DataTable) :
    t.compile ev =
      { t with
          columns := (compileColumnsLoop ev t.columnNameToIndexMapping
            (maxRowSpec t.data t.columns.length 0 0)
            (applyData t.data t.columns 0) false
            (List.range t.columns.length)).1
          maxRow := maxRowSpec t.data t.columns.length 0 0
          isThereColumnAggregations := (compileColumnsLoop ev
            t.columnNameToIndexMapping
            (maxRowSpec t.data t.columns.length 0 0)
            (applyData t.data t.columns 0) false
            (List.range t.columns.length)).2 } := by
  unfold DataTable.compile
  rw [compileSetRows_eq]
  dsimp only
  rw [applyData_length]

/-! ## Claim C6: row extent and rows to render -/

theorem foldl_maxKey_init_le :
    ∀ (l : Rows) (a : Nat),
      a ≤ l.foldl (fun m kv => if kv.1 > m then kv.1 else m) a := by
  intro l
  induction l with
  | nil => intro a; exact Nat.le_refl a
  | cons kv rest ih =>
      intro a
      rw [List.foldl_cons]
      refine Nat.le_trans ?_ (ih _)
      split <;> omega

theorem le_foldl_maxKey_of_mem :
    ∀ (l : Rows) (a k : Nat), k ∈ l.map Prod.fst →
      k ≤ l.foldl (fun m kv => if kv.1 > m then kv.1 else m) a := by
  intro l
  induction l with
  | nil => intro a k hk; cases hk
  | cons kv rest ih =>
      intro a k hk
      rw [List.map_cons] at hk
      rw [List.foldl_cons]
      rcases List.mem_cons.mp hk with rfl | hk
      · refine Nat.le_trans ?_ (foldl_maxKey_init_le rest _)
        split <;> omega
      · exact ih _ k hk

theorem foldl_maxKey_le :
    ∀ (l : Rows) (a b : Nat), a ≤ b → (∀ k ∈ l.map Prod.fst, k ≤ b) →
      l.foldl (fun m kv => if kv.1 > m then kv.1 else m) a ≤ b := by
  intro l
  induction l with
  | nil => intro a b hab _; exact hab
  | cons kv rest ih =>
      intro a b hab hk
      rw [List.foldl_cons]
      refine ih _ b ?_ ?_
      · have hhead : kv.1 ≤ b := hk kv.1 (by rw [List.map_cons]; exact List.mem_cons_self _ _)
        split <;> omega
      · intro k hmem
        exact hk k (by rw [List.map_cons]; exact List.mem_cons_of_mem _ hmem)

theorem le_rowsMaxKey (rows : Rows) (k : Nat) (hk : k ∈ rows.map Prod.fst) :
    k ≤ rowsMaxKey rows :=
  le_foldl_maxKey_of_mem rows 0 k hk

theorem rowsMaxKey_le (rows : Rows) (b : Nat)
    (h : ∀ k ∈ rows.map Prod.fst, k ≤ b) : rowsMaxKey rows ≤ b :=
  foldl_maxKey_le rows 0 b (Nat.zero_le b) h

theorem maxRowSpec_init_le (data : Nat → Option Rows) :
    ∀ (n i m : Nat), m ≤ maxRowSpec data n i m := by
  intro n
  induction n with
  | zero => intro i m; exact Nat.le_refl m
  | succ n ih =>
      intro i m
      unfold maxRowSpec
      refine Nat.le_trans ?_ (ih (i + 1) _)
      cases data i with
      | some rows => dsimp only; split <;> omega
      | none => exact Nat.le_refl m

theorem maxRowSpec_le (data : Nat → Option Rows) :
    ∀ (n i m b : Nat), m ≤ b →
      (∀ i' rows, i ≤ i' → i' < i + n → data i' = some rows →
        rowsMaxKey rows ≤ b) →
      maxRowSpec data n i m ≤ b := by
  intro n
  induction n with
  | zero => intro i m b hmb _; exact hmb
  | succ n ih =>
      intro i m b hmb hrows
      unfold maxRowSpec
      refine ih (i + 1) _ b ?_ ?_
      · cases hdata : data i with
        | some rows =>
            have : rowsMaxKey rows ≤ b :=
              hrows i rows (Nat.le_refl i) (by omega) hdata
            dsimp only
            split <;> omega
        | none => exact hmb
      · intro i' rows hi1 hi2 hdata
        exact hrows i' rows (by omega) (by omega) hdata

theorem le_maxRowSpec (data : Nat → Option Rows) :
    ∀ (n i m i' : Nat) (rows : Rows), i ≤ i' → i' < i + n →
      data i' = some rows → rowsMaxKey rows ≤ maxRowSpec data n i m := by
  intro n
  induction n with
  | zero => intro i m i' rows h1 h2; omega
  | succ n ih =>
      intro i m i' rows h1 h2 hdata
      unfold maxRowSpec
      by_cases hii : i' = i
      · subst hii
        rw [hdata]
        refine Nat.le_trans ?_ (maxRowSpec_init_le data n (i' + 1) _)
        dsimp only
        split <;> omega
      · exact ih (i + 1) _ i' rows (by omega) (by omega) hdata

/-- C6.  After `compile()`, when some column's raw data reaches row index 5
and no column's raw data goes beyond it, the derived row extent is 5; and
`getRowsToRender()` returns `maxRow + 2` when at least one column carries a
non-None aggregation, else `maxRow + 1`. -/
theorem row_extent_and_rows_to_render :
    (∀ (ev : String → Option String) (t : DataTable),
      (∃ i, i < t.columns.length ∧ ∃ rows, t.data i = some rows ∧
        5 ∈ rows.map Prod.fst) →
      (∀ i rows, i < t.columns.length → t.data i = some rows →
        ∀ k ∈ rows.map Prod.fst, k ≤ 5) →
      (t.compile ev).maxRow = 5) ∧
    (∀ (ev : String → Option String) (t : DataTable),
      ((∃ col ∈ t.columns, col.aggregation.operation ≠ .None) →
        (t.compile ev).getRowsToRender = (t.compile ev).maxRow + 2) ∧
      ((∀ col ∈ t.columns, col.aggregation.operation = .None) →
        (t.compile ev).getRowsToRender = (t.compile ev).maxRow + 1)) := by
  constructor
  · rintro ev t ⟨i, hi, rows, hdata, h5⟩ hbound
    rw [compile_eq]
    dsimp only
    refine Nat.le_antisymm ?_ ?_
    · refine maxRowSpec_le t.data t.columns.length 0 0 5 (by omega) ?_
      intro i' rows' _ hi' hdata'
      exact rowsMaxKey_le rows' 5 (hbound i' rows' (by omega) hdata')
    · refine Nat.le_trans (le_rowsMaxKey rows 5 h5) ?_
      exact le_maxRowSpec t.data t.columns.length 0 0 i rows (Nat.zero_le i)
        (by omega) hdata
  · intro ev t
    have hflag : (t.compile ev).isThereColumnAggregations =
        (List.range t.columns.length).any (fun j =>
          match t.columns[j]? with
          | some c => decide (c.aggregation.operation ≠ .None)
          | none => false) := by
      rw [compile_eq]
      dsimp only
      rw [compileColumnsLoop_flag]
      rw [Bool.false_or]
      apply list_any_congr
      intro j _
      apply aggOp_match_eq_of_map_skel
      exact applyData_map_skel t.data t.columns 0
    constructor
    · rintro ⟨col, hcol, hop⟩
      obtain ⟨j, hj, rfl⟩ := List.mem_iff_getElem.mp hcol
      have hget : t.columns[j]? = some t.columns[j] := List.getElem?_eq_getElem hj
      have : (t.compile ev).isThereColumnAggregations = true := by
        rw [hflag, List.any_eq_true]
        refine ⟨j, List.mem_range.mpr hj, ?_⟩
        rw [hget]
        exact decide_eq_true hop
      unfold DataTable.getRowsToRender
      rw [this]
      rfl
    · intro hall
      have : (t.compile ev).isThereColumnAggregations = false := by
        rw [hflag]
        rw [List.any_eq_false]
        intro j hj
        cases hget : t.columns[j]? with
        | none => simp
        | some c =>
            have hc : c ∈ t.columns := List.getElem?_mem hget
            simp [hall c hc]
      unfold DataTable.getRowsToRender
      rw [this]
      rfl

/-- Raw data with populated row indices 0, 1 and 5 bound to a single
Sum-aggregated column. -/
def gapTable : DataTable :=
  (DataTable.new (fun i =>
      if i = 0 then
        some [(0, .num (.num 1)), (1, .num (.num 2)), (5, .num (.num 3))]
      else none)).addColumns
    [(ColumnData.new "G" .data "g").withAggregation .Sum]

/-- C6, witness: the gap table compiles to row extent 5 and, carrying a Sum
aggregation, renders 7 rows; the one-column table without aggregations
renders its row extent plus one rows. -/
theorem row_extent_and_rows_to_render_witness :
    (gapTable.compile mathEvalModel).maxRow = 5 ∧
    (gapTable.compile mathEvalModel).getRowsToRender =
      (gapTable.compile mathEvalModel).maxRow + 2 ∧
    (singleTable.compile mathEvalModel).getRowsToRender =
      (singleTable.compile mathEvalModel).maxRow + 1 := by
  refine ⟨?_, ?_, ?_⟩
  · refine row_extent_and_rows_to_render.1 mathEvalModel gapTable
      ⟨0, by decide, [(0, .num (.num 1)), (1, .num (.num 2)), (5, .num (.num 3))],
        by decide, by decide⟩ ?_
    intro i rows hi hdata
    have hi0 : i = 0 := by
      have : i < 1 := hi
      omega
    subst hi0
    have hrows : rows =
        [(0, .num (.num 1)), (1, .num (.num 2)), (5, .num (.num 3))] := by
      have hd : gapTable.data 0 =
          some [(0, .num (.num 1)), (1, .num (.num 2)), (5, .num (.num 3))] := by
        decide
      rw [hd, Option.some_inj] at hdata
      exact hdata.symm
    subst hrows
    decide
  · exact (row_extent_and_rows_to_render.2 mathEvalModel gapTable).1
      ⟨(ColumnData.new "G" .data "g").withAggregation .Sum, by decide, by decide⟩
  · refine (row_extent_and_rows_to_render.2 mathEvalModel singleTable).2 ?_
    intro col hcol
    have : col = ColumnData.new "X" .data "x" := by
      have hc : singleTable.columns = [ColumnData.new "X" .data "x"] := by decide
      rw [hc, List.mem_singleton] at hcol
      exact hcol
    rw [this]
    decide

/-! ## Claim C1: compile idempotence

The second compile loop rewrites each calculated column to a canonical
update (`canonicalUpd`) whose reads, under the hypothesis that calculated
columns reference only non-calculated columns, can be taken against the
fixed post-assignment list `N`.  The canonical update is idempotent, which
is what makes a second compile a no-op. -/

theorem rowsSet_nil (k : Nat) (v : Value) : rowsSet [] k v = [(k, v)] := rfl

theorem rowsSet_cons_lt (rest : Rows) (a k : Nat) (v0 v : Value)
    (h : k < a) :
    rowsSet ((a, v0) :: rest) k v = (k, v) :: (a, v0) :: rest := by
  rw [rowsSet, if_pos h]

theorem rowsSet_cons_eq (rest : Rows) (a k : Nat) (v0 v : Value)
    (h : k = a) :
    rowsSet ((a, v0) :: rest) k v = (k, v) :: rest := by
  rw [rowsSet, if_neg (by omega), if_pos h]

theorem rowsSet_cons_gt (rest : Rows) (a k : Nat) (v0 v : Value)
    (h : a < k) :
    rowsSet ((a, v0) :: rest) k v = (a, v0) :: rowsSet rest k v := by
  rw [rowsSet, if_neg (by omega), if_neg (by omega)]

theorem rowsSet_self :
    ∀ (m : Rows) (k : Nat) (v : Value),
      rowsSet (rowsSet m k v) k v = rowsSet m k v := by
  intro m
  induction m with
  | nil =>
      intro k v
      rw [rowsSet_nil, rowsSet_cons_eq _ _ _ _ _ rfl]
  | cons kv rest ih =>
      intro k v
      obtain ⟨a, w⟩ := kv
      rcases Nat.lt_trichotomy k a with h | h | h
      · rw [rowsSet_cons_lt _ _ _ _ _ h, rowsSet_cons_eq _ _ _ _ _ rfl]
      · rw [rowsSet_cons_eq _ _ _ _ _ h, rowsSet_cons_eq _ _ _ _ _ rfl]
      · rw [rowsSet_cons_gt _ _ _ _ _ h, rowsSet_cons_gt _ _ _ _ _ h, ih]

theorem rowsSet_comm :
    ∀ (m : Rows) (a b : Nat) (u w : Value), a ≠ b →
      rowsSet (rowsSet m a u) b w = rowsSet (rowsSet m b w) a u := by
  intro m
  induction m with
  | nil =>
      intro a b u w hab
      rcases Nat.lt_trichotomy a b with h | h | h
      · rw [rowsSet_nil, rowsSet_nil, rowsSet_cons_gt _ _ _ _ _ h,
          rowsSet_cons_lt _ _ _ _ _ h, rowsSet_nil]
      · exact absurd h hab
      · rw [rowsSet_nil, rowsSet_nil, rowsSet_cons_lt _ _ _ _ _ h,
          rowsSet_cons_gt _ _ _ _ _ h, rowsSet_nil]
  | cons kv rest ih =>
      intro a b u w hab
      obtain ⟨k, v0⟩ := kv
      rcases Nat.lt_trichotomy a k with hak | hak | hak <;>
        rcases Nat.lt_trichotomy b k with hbk | hbk | hbk
      · -- a < k, b < k
        rcases Nat.lt_trichotomy a b with h | h | h
        · rw [rowsSet_cons_lt _ _ _ _ _ hak, rowsSet_cons_gt _ _ _ _ _ h,
            rowsSet_cons_lt _ _ _ _ _ hbk, rowsSet_cons_lt _ _ _ _ _ h]
        · exact absurd h hab
        · rw [rowsSet_cons_lt _ _ _ _ _ hak, rowsSet_cons_lt _ _ _ _ _ h,
            rowsSet_cons_lt _ _ _ _ _ hbk, rowsSet_cons_gt _ _ _ _ _ h,
            rowsSet_cons_lt _ _ _ _ _ hak]
      · -- a < k, b = k
        subst hbk
        rw [rowsSet_cons_lt _ _ _ _ _ hak, rowsSet_cons_gt _ _ _ _ _ hak,
          rowsSet_cons_eq _ _ _ _ _ rfl, rowsSet_cons_lt _ _ _ _ _ hak]
      · -- a < k, b > k
        rw [rowsSet_cons_lt _ _ _ _ _ hak,
          rowsSet_cons_gt _ _ _ _ _ (Nat.lt_trans hak hbk),
          rowsSet_cons_gt _ _ _ _ _ hbk, rowsSet_cons_lt _ _ _ _ _ hak]
      · -- a = k, b < k
        subst hak
        rw [rowsSet_cons_eq _ _ _ _ _ rfl, rowsSet_cons_lt _ _ _ _ _ hbk,
          rowsSet_cons_lt _ _ _ _ _ hbk, rowsSet_cons_gt _ _ _ _ _ hbk,
          rowsSet_cons_eq _ _ _ _ _ rfl]
      · exact absurd (hak.trans hbk.symm) hab
      · -- a = k, b > k
        subst hak
        rw [rowsSet_cons_eq _ _ _ _ _ rfl, rowsSet_cons_gt _ _ _ _ _ hbk,
          rowsSet_cons_gt _ _ _ _ _ hbk, rowsSet_cons_eq _ _ _ _ _ rfl]
      · -- a > k, b < k
        rw [rowsSet_cons_gt _ _ _ _ _ hak, rowsSet_cons_lt _ _ _ _ _ hbk,
          rowsSet_cons_lt _ _ _ _ _ hbk,
          rowsSet_cons_gt _ _ _ _ _ (Nat.lt_trans hbk hak),
          rowsSet_cons_gt _ _ _ _ _ hak]
      · -- a > k, b = k
        subst hbk
        rw [rowsSet_cons_gt _ _ _ _ _ hak, rowsSet_cons_eq _ _ _ _ _ rfl,
          rowsSet_cons_eq _ _ _ _ _ rfl, rowsSet_cons_gt _ _ _ _ _ hak]
      · -- a > k, b > k
        rw [rowsSet_cons_gt _ _ _ _ _ hak, rowsSet_cons_gt _ _ _ _ _ hbk,
          rowsSet_cons_gt _ _ _ _ _ hbk, rowsSet_cons_gt _ _ _ _ _ hak,
          ih a b u w hab]

/-- Apply the per-row updates `f` at each row index of `rs` in turn. -/
def rowsSetList (f : Nat → Value) : Rows → List Nat → Rows
  | m, [] => m
  | m, r :: rs => rowsSetList f (rowsSet m r (f r)) rs

theorem rowsSetList_rowsSet_comm (f : Nat → Value) :
    ∀ (rs : List Nat) (m : Rows) (k : Nat) (v : Value), k ∉ rs →
      rowsSetList f (rowsSet m k v) rs = rowsSet (rowsSetList f m rs) k v := by
  intro rs
  induction rs with
  | nil => intro m k v _; rfl
  | cons r rs ih =>
      intro m k v hk
      have hkr : k ≠ r := fun h => hk (h ▸ List.mem_cons_self r rs)
      have hks : k ∉ rs := fun h => hk (List.mem_cons_of_mem r h)
      show rowsSetList f (rowsSet (rowsSet m k v) r (f r)) rs = _
      rw [rowsSet_comm m k r v (f r) hkr, ih _ k v hks]
      rfl

theorem rowsSetList_idem (f : Nat → Value) :
    ∀ (rs : List Nat) (m : Rows), rs.Nodup →
      rowsSetList f (rowsSetList f m rs) rs = rowsSetList f m rs := by
  intro rs
  induction rs with
  | nil => intro m _; rfl
  | cons r rs ih =>
      intro m hnd
      have hr : r ∉ rs := (List.nodup_cons.mp hnd).1
      have hnd' : rs.Nodup := (List.nodup_cons.mp hnd).2
      show rowsSetList f (rowsSet (rowsSetList f (rowsSet m r (f r)) rs) r (f r)) rs = _
      rw [← rowsSetList_rowsSet_comm f rs (rowsSet m r (f r)) r (f r) hr,
        rowsSet_self, ih _ hnd']
      rfl

/-- Cumulative effect of the per-row `withVariables` mutations: the stored
assignment after filling the rows of `rs` in turn. -/
def varsAfter (g : Nat → List (String × Value)) :
    List (String × Value) → List Nat → List (String × Value)
  | v, [] => v
  | _, r :: rs => varsAfter g (g r) rs

theorem varsAfter_init (g : Nat → List (String × Value)) :
    ∀ (rs : List Nat) (v w : List (String × Value)), rs ≠ [] →
      varsAfter g v rs = varsAfter g w rs := by
  intro rs
  cases rs with
  | nil => intro v w h; exact absurd rfl h
  | cons r rs => intro v w _; rfl

/-- The value a calculated column with the given expression and expected
variables stores at row `r`, reading its variables from the fixed column
list `N`. -/
def rowValFn (ev : String → Option String) (M : String → Option Nat)
    (N : List ColumnData) (expr : String) (names : List String) (r : Nat) :
    Value :=
  .str (ColumnCalculation.calculate ev ⟨expr, names, getCalcVarsAux M N r names []⟩)

/-- Fill the rows of `rs` of a calculated column in turn, reading the
calculation variables from the fixed column list `N`. -/
def applyFills (ev : String → Option String) (M : String → Option Nat)
    (N : List ColumnData) : ColumnData → List Nat → ColumnData
  | col, [] => col
  | col, r :: rs =>
      applyFills ev M N
        (col.fillCalculatedRow ev r
          (getCalcVarsAux M N r col.calculation.expectedVariables [])) rs

theorem applyFills_char (ev : String → Option String)
    (M : String → Option Nat) (N : List ColumnData) :
    ∀ (rs : List Nat) (col : ColumnData),
      applyFills ev M N col rs =
        { col with
            rows := rowsSetList (rowValFn ev M N col.calculation.expression
              col.calculation.expectedVariables) col.rows rs
            calculation := ⟨col.calculation.expression,
              col.calculation.expectedVariables,
              varsAfter (fun r => getCalcVarsAux M N r
                col.calculation.expectedVariables []) col.calculation.vars rs⟩ } := by
  intro rs
  induction rs with
  | nil => intro col; rfl
  | cons r rs ih =>
      intro col
      show applyFills ev M N
        (col.fillCalculatedRow ev r
          (getCalcVarsAux M N r col.calculation.expectedVariables [])) rs = _
      rw [ih]
      rfl

/-- The canonical effect of the second compile loop on one calculated
column: overwrite rows 0 through `R` with the values computed against `N`,
and leave the last row's variable assignment stored in the calculation. -/
def canonicalUpd (ev : String → Option String) (M : String → Option Nat)
    (N : List ColumnData) (R : Nat) (c : ColumnData) : ColumnData :=
  { c with
      rows := rowsSetList
        (rowValFn ev M N c.calculation.expression c.calculation.expectedVariables)
        c.rows (List.range (R + 1))
      calculation := ⟨c.calculation.expression, c.calculation.expectedVariables,
        varsAfter (fun r => getCalcVarsAux M N r
          c.calculation.expectedVariables []) [] (List.range (R + 1))⟩ }

theorem range_succ_ne_nil (R : Nat) : List.range (R + 1) ≠ [] := by
  intro h
  have := congrArg List.length h
  simp at this

theorem applyFills_range (ev : String → Option String)
    (M : String → Option Nat) (N : List ColumnData) (R : Nat)
    (col : ColumnData) :
    applyFills ev M N col (List.range (R + 1)) = canonicalUpd ev M N R col := by
  rw [applyFills_char]
  unfold canonicalUpd
  rw [varsAfter_init _ (List.range (R + 1)) col.calculation.vars []
    (range_succ_ne_nil R)]

theorem skel_canonicalUpd (ev : String → Option String)
    (M : String → Option Nat) (N : List ColumnData) (R : Nat)
    (c : ColumnData) : skel (canonicalUpd ev M N R c) = skel c := rfl

theorem canonicalUpd_idem (ev : String → Option String)
    (M : String → Option Nat) (N : List ColumnData) (R : Nat)
    (c : ColumnData) :
    canonicalUpd ev M N R (canonicalUpd ev M N R c) = canonicalUpd ev M N R c := by
  unfold canonicalUpd
  dsimp only
  rw [rowsSetList_idem _ _ _ (List.nodup_range (R + 1))]

/-- Equality of columns up to the variable assignment stored inside the
calculation (the one piece of state `withVariables` mutates but no read
observes). -/
def eqUpToVars (p q : ColumnData) : Prop :=
  q = { p with calculation := ⟨p.calculation.expression,
        p.calculation.expectedVariables, q.calculation.vars⟩ }

theorem eqUpToVars_refl (c : ColumnData) : eqUpToVars c c := rfl

theorem skel_eqUpToVars (p q : ColumnData) (h : eqUpToVars p q) :
    skel q = skel p := by
  rw [h]; rfl

theorem canonicalUpd_congr_vars (ev : String → Option String)
    (M : String → Option Nat) (N : List ColumnData) (R : Nat)
    (p q : ColumnData) (h : eqUpToVars p q) :
    canonicalUpd ev M N R q = canonicalUpd ev M N R p := by
  rw [h]
  rfl

theorem lt_of_getElem?_some {α : Type} {l : List α} {j : Nat} {a : α}
    (h : l[j]? = some a) : j < l.length := by
  by_contra hn
  rw [List.getElem?_eq_none_iff.mpr (by omega)] at h
  cases h

theorem getCalcVarsAux_congr (M : String → Option Nat)
    (cols cols' : List ColumnData) (r : Nat) :
    ∀ (names : List String) (acc : List (String × Value)),
      (∀ name ∈ names, ∀ i, M name = some i → cols[i]? = cols'[i]?) →
      getCalcVarsAux M cols r names acc = getCalcVarsAux M cols' r names acc := by
  intro names
  induction names with
  | nil => intro acc _; rfl
  | cons name rest ih =>
      intro acc h
      have hname := h name (List.mem_cons_self name rest)
      have hrest : ∀ nm ∈ rest, ∀ i, M nm = some i → cols[i]? = cols'[i]? :=
        fun nm hnm => h nm (List.mem_cons_of_mem name hnm)
      unfold getCalcVarsAux
      cases hM : M name with
      | none => exact ih acc hrest
      | some i =>
          dsimp only
          rw [hname i hM]
          cases cols'[i]? with
          | none => exact ih acc hrest
          | some c => exact ih _ hrest

/-- The first compile loop's list with the raw data already assigned, which
the non-calculated columns keep for the rest of the pass: referenced
variables of calculated columns are read from these entries. -/
def refsOk (M : String → Option Nat) (N : List ColumnData) : Prop :=
  ∀ (k : Nat) (c : ColumnData), N[k]? = some c →
    c.columnType = ColumnType.calculated →
    ∀ name ∈ c.calculation.expectedVariables, ∀ i : Nat, M name = some i →
      ∃ cc : ColumnData, N[i]? = some cc ∧ cc.columnType ≠ ColumnType.calculated

/-- The loop invariant tying an evolving column list to the fixed reference
list `N`: skeletons agree pointwise and the non-calculated entries are
exactly those of `N`. -/
def tracksN (N P : List ColumnData) : Prop :=
  (∀ k : Nat, (P[k]?).map skel = (N[k]?).map skel) ∧
  (∀ (k : Nat) (c : ColumnData), N[k]? = some c →
    c.columnType ≠ ColumnType.calculated → P[k]? = some c)

theorem tracksN_refl (N : List ColumnData) : tracksN N N :=
  ⟨fun _ => rfl, fun _ _ h _ => h⟩

theorem tracksN_skel_some (N P : List ColumnData) (htr : tracksN N P)
    (k : Nat) (p : ColumnData) (hp : P[k]? = some p) :
    ∃ n, N[k]? = some n ∧ skel n = skel p := by
  obtain ⟨htr1, htr2⟩ := htr
  have h := htr1 k
  rw [hp] at h
  cases hN : N[k]? with
  | none => rw [hN] at h; cases h
  | some n =>
      rw [hN] at h
      refine ⟨n, rfl, ?_⟩
      simpa using h.symm

/-- Reads performed while filling column `j` are stable: every variable a
calculated column at `j` references resolves, under `refsOk` and `tracksN`,
to a non-calculated entry different from `j` on which `P` and `N` agree. -/
theorem reads_stable (M : String → Option Nat) (N P : List ColumnData)
    (href : refsOk M N) (htr : tracksN N P) (j : Nat) (p : ColumnData)
    (hj : P[j]? = some p) (hc : p.columnType = .calculated) :
    ∀ name ∈ p.calculation.expectedVariables, ∀ i, M name = some i →
      i ≠ j ∧ P[i]? = N[i]? := by
  intro name hname i hMi
  obtain ⟨n, hNj, hskn⟩ := tracksN_skel_some N P htr j p hj
  obtain ⟨htr1, htr2⟩ := htr
  unfold refsOk at href
  have hnc : n.columnType = .calculated := by
    have := congrArg Skel.columnType hskn
    simp only [skel] at this
    rw [this, hc]
  have hnames : n.calculation.expectedVariables =
      p.calculation.expectedVariables := by
    have := congrArg Skel.expectedVariables hskn
    simpa [skel] using this
  obtain ⟨cc, hNi, hccnc⟩ :=
    href j n hNj hnc name (by rw [hnames]; exact hname) i hMi
  have hPi : P[i]? = some cc := htr2 i cc hNi hccnc
  constructor
  · intro hij
    subst hij
    rw [hNi] at hNj
    rw [Option.some_inj] at hNj
    rw [← hNj] at hnc
    exact hccnc hnc
  · rw [hPi, hNi]

theorem fillColumnRows_eq_set (ev : String → Option String)
    (M : String → Option Nat) (N : List ColumnData) (j : Nat) :
    ∀ (rs : List Nat) (P : List ColumnData) (col : ColumnData),
      P[j]? = some col →
      (∀ name ∈ col.calculation.expectedVariables, ∀ i, M name = some i →
        i ≠ j ∧ P[i]? = N[i]?) →
      fillColumnRows ev M j P rs = P.set j (applyFills ev M N col rs) := by
  intro rs
  induction rs with
  | nil =>
      intro P col hj _
      show P = P.set j col
      rw [set_getElem?_eq_self P j col hj]
  | cons r rs ih =>
      intro P col hj hreads
      have hjlen : j < P.length := lt_of_getElem?_some hj
      unfold fillColumnRows
      rw [hj]
      dsimp only
      have hgcv : getCalcVarsAux M P r col.calculation.expectedVariables [] =
          getCalcVarsAux M N r col.calculation.expectedVariables [] := by
        apply getCalcVarsAux_congr
        intro name hname i hMi
        exact (hreads name hname i hMi).2
      rw [hgcv]
      set col' := col.fillCalculatedRow ev r
        (getCalcVarsAux M N r col.calculation.expectedVariables []) with hcol'
      have hj' : (P.set j col')[j]? = some col' :=
        List.getElem?_set_self hjlen
      have hreads' : ∀ name ∈ col'.calculation.expectedVariables, ∀ i,
          M name = some i → i ≠ j ∧ (P.set j col')[i]? = N[i]? := by
        intro name hname i hMi
        have hnames : col'.calculation.expectedVariables =
            col.calculation.expectedVariables := rfl
        rw [hnames] at hname
        obtain ⟨hij, hPN⟩ := hreads name hname i hMi
        refine ⟨hij, ?_⟩
        rw [List.getElem?_set_ne (fun h => hij h.symm), hPN]
      rw [ih (P.set j col') col' hj' hreads']
      rw [List.set_set]
      rfl

/-- How the entries of two second-loop states may differ while the loop has
not yet reached them: pending calculated entries agree up to the stored
variable assignment, before or after the canonical update; all other entries
are equal. -/
def RelEntry (ev : String → Option String) (M : String → Option Nat)
    (N : List ColumnData) (R : Nat) (pend : Prop) :
    Option ColumnData → Option ColumnData → Prop
  | none, none => True
  | some p, some q =>
      ((pend ∧ p.columnType = ColumnType.calculated) →
        (eqUpToVars p q ∨ eqUpToVars (canonicalUpd ev M N R p) q)) ∧
      (¬ (pend ∧ p.columnType = ColumnType.calculated) → q = p)
  | _, _ => False

theorem RelEntry_refl (ev : String → Option String) (M : String → Option Nat)
    (N : List ColumnData) (R : Nat) (pend : Prop) (c : ColumnData) :
    RelEntry ev M N R pend (some c) (some c) :=
  ⟨fun _ => Or.inl (eqUpToVars_refl c), fun _ => rfl⟩

theorem RelEntry_none (ev : String → Option String) (M : String → Option Nat)
    (N : List ColumnData) (R : Nat) (pend : Prop) :
    RelEntry ev M N R pend none none := trivial

theorem RelEntry_tail (ev : String → Option String) (M : String → Option Nat)
    (N : List ColumnData) (R : Nat) (k j : Nat) (js : List Nat)
    (o1 o2 : Option ColumnData)
    (h : RelEntry ev M N R (k ∈ j :: js) o1 o2) (hk : k ≠ j) :
    RelEntry ev M N R (k ∈ js) o1 o2 := by
  cases o1 with
  | none =>
      cases o2 with
      | none => trivial
      | some q => exact h.elim
  | some p =>
      cases o2 with
      | none => exact h.elim
      | some q =>
          obtain ⟨h1, h2⟩ := h
          refine ⟨fun hh => h1 ⟨List.mem_cons_of_mem j hh.1, hh.2⟩, fun hh => h2 ?_⟩
          rintro ⟨hm, hc⟩
          rcases List.mem_cons.mp hm with rfl | hm
          · exact hk rfl
          · exact hh ⟨hm, hc⟩

/-- Unfolding equation of the second loop at a cons cell. -/
theorem compileColumnsLoop_cons_eq (ev : String → Option String)
    (M : String → Option Nat) (R : Nat) (cols : List ColumnData)
    (flag : Bool) (j : Nat) (js : List Nat) :
    compileColumnsLoop ev M R cols flag (j :: js) =
      (match cols[j]? with
       | some col =>
           compileColumnsLoop ev M R
             (if col.columnType = ColumnType.calculated then
               fillColumnRows ev M j cols (List.range (R + 1)) else cols)
             (flag || decide (col.aggregation.operation ≠ ColumnAggregations.None))
             js
       | none => compileColumnsLoop ev M R cols flag js) := rfl

/-- One step of the second compile loop: a calculated column is rewritten to
its canonical update, everything else only feeds the aggregation flag. -/
theorem compileColumnsLoop_cons (ev : String → Option String)
    (M : String → Option Nat) (N : List ColumnData) (R : Nat)
    (href : refsOk M N) (j : Nat) (js : List Nat) (P : List ColumnData)
    (flag : Bool) (p : ColumnData) (htr : tracksN N P) (hj : P[j]? = some p) :
    compileColumnsLoop ev M R P flag (j :: js) =
      compileColumnsLoop ev M R
        (if p.columnType = ColumnType.calculated then
          P.set j (canonicalUpd ev M N R p) else P)
        (flag || decide (p.aggregation.operation ≠ .None)) js := by
  rw [compileColumnsLoop_cons_eq, hj]
  dsimp only
  by_cases hc : p.columnType = .calculated
  · rw [if_pos hc, if_pos hc]
    have hfill : fillColumnRows ev M j P (List.range (R + 1)) =
        P.set j (canonicalUpd ev M N R p) := by
      rw [fillColumnRows_eq_set ev M N j (List.range (R + 1)) P p hj
        (reads_stable M N P href htr j p hj hc), applyFills_range]
    rw [hfill]
  · rw [if_neg hc, if_neg hc]

theorem tracksN_set_canonical (ev : String → Option String)
    (M : String → Option Nat) (N : List ColumnData) (R : Nat)
    (P : List ColumnData) (j : Nat) (p : ColumnData) (htr : tracksN N P)
    (hj : P[j]? = some p) (hc : p.columnType = ColumnType.calculated) :
    tracksN N (P.set j (canonicalUpd ev M N R p)) := by
  obtain ⟨n, hNj, hskn⟩ := tracksN_skel_some N P htr j p hj
  obtain ⟨h1, h2⟩ := htr
  constructor
  · intro k
    by_cases hkj : k = j
    · subst hkj
      have hk := h1 k
      rw [hj] at hk
      rw [List.getElem?_set_self (lt_of_getElem?_some hj)]
      simpa [skel_canonicalUpd] using hk
    · rw [List.getElem?_set_ne (fun h => hkj h.symm)]
      exact h1 k
  · intro k c hNk hcnc
    by_cases hkj : k = j
    · subst hkj
      rw [hNk] at hNj
      rw [Option.some_inj] at hNj
      have : c.columnType = ColumnType.calculated := by
        have ht := congrArg Skel.columnType hskn
        simp only [skel] at ht
        rw [← hNj] at ht
        rw [ht, hc]
      exact absurd this hcnc
    · rw [List.getElem?_set_ne (fun h => hkj h.symm)]
      exact h2 k c hNk hcnc

/-- Second compile loop runs: two states related entrywise by `RelEntry`
produce the same columns and the same flag. -/
theorem compileColumnsLoop_congr (ev : String → Option String)
    (M : String → Option Nat) (N : List ColumnData) (R : Nat)
    (href : refsOk M N) :
    ∀ (js : List Nat) (P Q : List ColumnData) (flag : Bool),
      tracksN N P → tracksN N Q →
      (∀ k : Nat, RelEntry ev M N R (k ∈ js) P[k]? Q[k]?) →
      compileColumnsLoop ev M R P flag js =
        compileColumnsLoop ev M R Q flag js := by
  intro js
  induction js with
  | nil =>
      intro P Q flag _ _ hrel
      have hPQ : P = Q := by
        apply List.ext_getElem?_iff.mpr
        intro k
        have h := hrel k
        cases hP : P[k]? with
        | none =>
            cases hQ : Q[k]? with
            | none => rfl
            | some q => rw [hP, hQ] at h; exact h.elim
        | some p =>
            cases hQ : Q[k]? with
            | none => rw [hP, hQ] at h; exact h.elim
            | some q =>
                rw [hP, hQ] at h
                rw [h.2 (by simp)]
      rw [hPQ]
  | cons j js ih =>
      intro P Q flag htrP htrQ hrel
      have hj := hrel j
      cases hPj : P[j]? with
      | none =>
          cases hQj : Q[j]? with
          | some q => rw [hPj, hQj] at hj; exact hj.elim
          | none =>
              rw [compileColumnsLoop_cons_eq, compileColumnsLoop_cons_eq, hPj,
                hQj]
              apply ih P Q flag htrP htrQ
              intro k
              by_cases hkj : k = j
              · subst hkj
                rw [hPj, hQj]
                exact RelEntry_none ev M N R _
              · exact RelEntry_tail ev M N R k j js _ _ (hrel k) hkj
      | some p =>
          cases hQj : Q[j]? with
          | none => rw [hPj, hQj] at hj; exact hj.elim
          | some q =>
              rw [hPj, hQj] at hj
              obtain ⟨hj1, hj2⟩ := hj
              have hskelq : skel q = skel p := by
                by_cases hc : p.columnType = .calculated
                · rcases hj1 ⟨List.mem_cons_self j js, hc⟩ with h1 | h1
                  · exact skel_eqUpToVars p q h1
                  · rw [skel_eqUpToVars _ q h1, skel_canonicalUpd]
                · rw [hj2 (fun hh => hc hh.2)]
              have hagg : q.aggregation.operation = p.aggregation.operation :=
                congrArg Skel.aggregationOp hskelq
              have htyq : q.columnType = p.columnType :=
                congrArg Skel.columnType hskelq
              rw [compileColumnsLoop_cons ev M N R href j js P flag p htrP hPj,
                compileColumnsLoop_cons ev M N R href j js Q flag q htrQ hQj,
                hagg, htyq]
              by_cases hc : p.columnType = .calculated
              · rw [if_pos hc, if_pos hc]
                have hcan : canonicalUpd ev M N R q = canonicalUpd ev M N R p := by
                  rcases hj1 ⟨List.mem_cons_self j js, hc⟩ with h1 | h1
                  · exact canonicalUpd_congr_vars ev M N R p q h1
                  · rw [canonicalUpd_congr_vars ev M N R _ q h1,
                      canonicalUpd_idem]
                rw [hcan]
                refine ih _ _ _
                  (tracksN_set_canonical ev M N R P j p htrP hPj hc)
                  (hcan ▸ tracksN_set_canonical ev M N R Q j q htrQ hQj
                    (by rw [htyq]; exact hc)) ?_
                intro k
                by_cases hkj : k = j
                · subst hkj
                  rw [List.getElem?_set_self (lt_of_getElem?_some hPj),
                    List.getElem?_set_self (lt_of_getElem?_some hQj)]
                  exact RelEntry_refl ev M N R _ _
                · rw [List.getElem?_set_ne (fun h => hkj h.symm),
                    List.getElem?_set_ne (fun h => hkj h.symm)]
                  exact RelEntry_tail ev M N R k j js _ _ (hrel k) hkj
              · rw [if_neg hc, if_neg hc]
                have hqp : q = p := hj2 (fun hh => hc hh.2)
                subst hqp
                apply ih P Q _ htrP htrQ
                intro k
                by_cases hkj : k = j
                · subst hkj
                  rw [hPj, hQj]
                  exact RelEntry_refl ev M N R _ _
                · exact RelEntry_tail ev M N R k j js _ _ (hrel k) hkj

theorem mem_cons_iff_of_ne {k j : Nat} {js : List Nat} (h : k ≠ j) :
    k ∈ j :: js ↔ k ∈ js := by
  simp [List.mem_cons, h]

/-- The second compile loop's result, entry by entry: each calculated column
it visits becomes its canonical update, everything else is untouched. -/
theorem compileColumnsLoop_getElem (ev : String → Option String)
    (M : String → Option Nat) (N : List ColumnData) (R : Nat)
    (href : refsOk M N) :
    ∀ (js : List Nat) (P : List ColumnData) (flag : Bool),
      tracksN N P → js.Nodup →
      ∀ k : Nat, ((compileColumnsLoop ev M R P flag js).1)[k]? =
        if k ∈ js then
          (P[k]?).map (fun c =>
            if c.columnType = ColumnType.calculated then canonicalUpd ev M N R c
            else c)
        else P[k]? := by
  intro js
  induction js with
  | nil => intro P flag _ _ k; simp [compileColumnsLoop]
  | cons j js ih =>
      intro P flag htr hnd k
      obtain ⟨hjnotin, hnd'⟩ := List.nodup_cons.mp hnd
      cases hPj : P[j]? with
      | none =>
          rw [compileColumnsLoop_cons_eq, hPj]
          rw [ih P flag htr hnd' k]
          by_cases hkj : k = j
          · subst hkj
            rw [if_neg hjnotin, if_pos (List.mem_cons_self k js), hPj]
            rfl
          · rw [if_congr (mem_cons_iff_of_ne hkj).symm rfl rfl]
      | some p =>
          rw [compileColumnsLoop_cons ev M N R href j js P flag p htr hPj]
          by_cases hc : p.columnType = .calculated
          · rw [if_pos hc]
            rw [ih _ _ (tracksN_set_canonical ev M N R P j p htr hPj hc) hnd' k]
            by_cases hkj : k = j
            · subst hkj
              rw [if_neg hjnotin,
                List.getElem?_set_self (lt_of_getElem?_some hPj),
                if_pos (List.mem_cons_self k js), hPj]
              simp [hc]
            · rw [List.getElem?_set_ne (fun h => hkj h.symm),
                if_congr (mem_cons_iff_of_ne hkj).symm rfl rfl]
          · rw [if_neg hc]
            rw [ih P _ htr hnd' k]
            by_cases hkj : k = j
            · subst hkj
              rw [if_neg hjnotin, if_pos (List.mem_cons_self k js), hPj]
              simp [hc]
            · rw [if_congr (mem_cons_iff_of_ne hkj).symm rfl rfl]

/-- The amended claim's hypothesis, decidably: every variable reference of
every calculated column that the name-to-index mapping resolves points at a
non-calculated column. -/
def calcRefsNonCalc (t : DataTable) : Bool :=
  t.columns.all (fun col =>
    !(col.columnType == ColumnType.calculated) ||
    col.calculation.expectedVariables.all (fun name =>
      match t.columnNameToIndexMapping name with
      | some j =>
          match t.columns[j]? with
          | some c => !(c.columnType == ColumnType.calculated)
          | none => false
      | none => true))

theorem applyData_entry_collapse (data : Nat → Option Rows)
    (cols : List ColumnData) (k : Nat) (c : ColumnData)
    (hc : (applyData data cols 0)[k]? = some c) :
    (match data k with
     | some rows => c.setRows rows
     | none => c) = c := by
  rw [applyData_getElem?, Nat.zero_add] at hc
  cases h0 : cols[k]? with
  | none => rw [h0] at hc; cases hc
  | some c0 =>
      rw [h0] at hc
      have hcc : (match data k with
          | some rows => c0.setRows rows
          | none => c0) = c := by simpa using hc
      rw [← hcc]
      cases data k <;> rfl

theorem applyData_entry_rows (data : Nat → Option Rows)
    (cols : List ColumnData) (k : Nat) (c : ColumnData) (rows : Rows)
    (hc : (applyData data cols 0)[k]? = some c) (hd : data k = some rows) :
    c.rows = rows := by
  rw [applyData_getElem?, Nat.zero_add] at hc
  cases h0 : cols[k]? with
  | none => rw [h0] at hc; cases hc
  | some c0 =>
      rw [h0] at hc
      have hcc : (match data k with
          | some rows => c0.setRows rows
          | none => c0) = c := by simpa using hc
      rw [hd] at hcc
      rw [← hcc]
      rfl

theorem eqUpToVars_setRows_canonical (ev : String → Option String)
    (M : String → Option Nat) (N : List ColumnData) (R : Nat)
    (n : ColumnData) (rows : Rows) (hrows : n.rows = rows) :
    eqUpToVars n ((canonicalUpd ev M N R n).setRows rows) := by
  unfold eqUpToVars canonicalUpd ColumnData.setRows
  dsimp only
  rw [← hrows]

theorem refsOk_of_calcRefsNonCalc (t : DataTable)
    (h : calcRefsNonCalc t = true) :
    refsOk t.columnNameToIndexMapping (applyData t.data t.columns 0) := by
  intro k c hNk hc name hname i hMi
  have hNk2 := hNk
  rw [applyData_getElem?, Nat.zero_add] at hNk2
  cases hc0 : t.columns[k]? with
  | none => rw [hc0] at hNk2; cases hNk2
  | some c0 =>
      rw [hc0] at hNk2
      have hcc : (match t.data k with
          | some rows => c0.setRows rows
          | none => c0) = c := by simpa using hNk2
      have htype : c.columnType = c0.columnType := by
        rw [← hcc]; cases t.data k <;> rfl
      have hcalcEq : c.calculation = c0.calculation := by
        rw [← hcc]; cases t.data k <;> rfl
      have hc0calc : c0.columnType = ColumnType.calculated := by
        rw [← htype]; exact hc
      have hmem : c0 ∈ t.columns := List.getElem?_mem hc0
      unfold calcRefsNonCalc at h
      have hall := List.all_eq_true.mp h c0 hmem
      rw [hc0calc] at hall
      simp only [beq_self_eq_true, Bool.not_true, Bool.false_or] at hall
      rw [hcalcEq] at hname
      have hf := List.all_eq_true.mp hall name hname
      rw [hMi] at hf
      dsimp only at hf
      cases hci : t.columns[i]? with
      | none => rw [hci] at hf; cases hf
      | some cc0 =>
          rw [hci] at hf
          have hccnc : cc0.columnType ≠ ColumnType.calculated := by
            simpa using hf
          rw [applyData_getElem?, Nat.zero_add, hci]
          cases hdi : t.data i with
          | some rows =>
              exact ⟨cc0.setRows rows, rfl, hccnc⟩
          | none => exact ⟨cc0, rfl, hccnc⟩

/-- Running the second loop on the recompiled (pass-2) assignment gives the
same columns and flag as the first pass: non-calculated entries were reset
to the same raw rows, and calculated entries, already canonical from pass 1,
are idempotently rewritten. -/
theorem compile_twice_columns (ev : String → Option String)
    (M : String → Option Nat) (data : Nat → Option Rows)
    (cols0 : List ColumnData) (href : refsOk M (applyData data cols0 0))
    (R : Nat) :
    compileColumnsLoop ev M R
      (applyData data
        ((compileColumnsLoop ev M R (applyData data cols0 0) false
          (List.range cols0.length)).1) 0)
      false (List.range cols0.length) =
    compileColumnsLoop ev M R (applyData data cols0 0) false
      (List.range cols0.length) := by
  set N := applyData data cols0 0 with hN
  set L := compileColumnsLoop ev M R N false (List.range cols0.length) with hL
  set A2 := applyData data L.1 0 with hA2
  have hNlen : N.length = cols0.length := by
    rw [hN]; exact applyData_length data cols0 0
  have hrange : (List.range cols0.length).Nodup := List.nodup_range _
  have hLk : ∀ k : Nat, (L.1)[k]? =
      if k ∈ List.range cols0.length then
        (N[k]?).map (fun c =>
          if c.columnType = ColumnType.calculated then canonicalUpd ev M N R c
          else c)
      else N[k]? := by
    intro k
    rw [hL]
    exact compileColumnsLoop_getElem ev M N R href (List.range cols0.length) N
      false (tracksN_refl N) hrange k
  have hA2k : ∀ k : Nat, A2[k]? = (L.1[k]?).map (fun c =>
      match data k with
      | some rows => c.setRows rows
      | none => c) := by
    intro k
    rw [hA2, applyData_getElem?, Nat.zero_add]
  have hskelL : ∀ k : Nat, ((L.1)[k]?).map skel = (N[k]?).map skel := by
    intro k
    have hsk : L.1.map skel = N.map skel := by
      rw [hL]
      exact compileColumnsLoop_map_skel ev M R (List.range cols0.length) N false
    rw [← List.getElem?_map, ← List.getElem?_map, hsk]
  have htrA2 : tracksN N A2 := by
    constructor
    · intro k
      rw [hA2k k]
      cases hLk1 : L.1[k]? with
      | none =>
          have hh := hskelL k
          rw [hLk1] at hh
          simpa using hh
      | some c =>
          have hh := hskelL k
          rw [hLk1] at hh
          have hsk2 : skel (match data k with
              | some rows => c.setRows rows
              | none => c) = skel c := by
            cases data k <;> rfl
          simpa [hsk2] using hh
    · intro k c hNkc hcnc
      have hLkc : L.1[k]? = some c := by
        rw [hLk k]
        by_cases hk : k ∈ List.range cols0.length
        · rw [if_pos hk, hNkc]
          simp [hcnc]
        · rw [if_neg hk]
          exact hNkc
      rw [hA2k k, hLkc]
      have hcol : (match data k with
          | some rows => c.setRows rows
          | none => c) = c :=
        applyData_entry_collapse data cols0 k c (hN ▸ hNkc)
      simp [hcol]
  have hrel : ∀ k : Nat,
      RelEntry ev M N R (k ∈ List.range cols0.length) N[k]? A2[k]? := by
    intro k
    by_cases hk : k ∈ List.range cols0.length
    · have hklen : k < cols0.length := List.mem_range.mp hk
      cases hNk : N[k]? with
      | none =>
          have := List.getElem?_eq_none_iff.mp hNk
          omega
      | some n =>
          have hLkn : L.1[k]? = some (if n.columnType = ColumnType.calculated
              then canonicalUpd ev M N R n else n) := by
            rw [hLk k, if_pos hk, hNk]
            rfl
          rw [hA2k k, hLkn]
          by_cases hcalc : n.columnType = ColumnType.calculated
          · rw [if_pos hcalc]
            refine ⟨fun _ => ?_, fun hcontra => absurd ⟨hk, hcalc⟩ hcontra⟩
            cases hdk : data k with
            | none =>
                right
                simp only [Option.map_some, hdk]
                exact eqUpToVars_refl _
            | some rows =>
                left
                have hnrows : n.rows = rows :=
                  applyData_entry_rows data cols0 k n rows (hN ▸ hNk) hdk
                simp only [Option.map_some, hdk]
                exact eqUpToVars_setRows_canonical ev M N R n rows hnrows
          · rw [if_neg hcalc]
            have hcol : (match data k with
                | some rows => n.setRows rows
                | none => n) = n :=
              applyData_entry_collapse data cols0 k n (hN ▸ hNk)
            refine ⟨fun hcon => absurd hcon.2 hcalc, fun _ => ?_⟩
            simp only [Option.map_some, hcol]
    · have hklen : cols0.length ≤ k := by
        have := List.mem_range.not.mp hk
        omega
      have hNnone : N[k]? = none :=
        List.getElem?_eq_none_iff.mpr (by omega)
      have hLnone : L.1[k]? = none := by
        rw [hLk k, if_neg hk]
        exact hNnone
      rw [hNnone, hA2k k, hLnone]
      exact RelEntry_none ev M N R _
  rw [hL]
  exact (compileColumnsLoop_congr ev M N R href (List.range cols0.length) N A2
    false (tracksN_refl N) htrA2 hrel).symm

/-- Compiling twice is compiling once, when every calculated column's
resolved references point at non-calculated columns. -/
theorem compile_compile_eq (ev : String → Option String) (t : DataTable)
    (h : calcRefsNonCalc t = true) :
    (t.compile ev).compile ev = t.compile ev := by
  have href := refsOk_of_calcRefsNonCalc t h
  have h1 := compile_eq ev t
  have h2 := compile_eq ev (t.compile ev)
  rw [h1] at h2
  dsimp only at h2
  have hlen1 : ((compileColumnsLoop ev t.columnNameToIndexMapping
      (maxRowSpec t.data t.columns.length 0 0)
      (applyData t.data t.columns 0) false
      (List.range t.columns.length)).1).length = t.columns.length := by
    have hsk := compileColumnsLoop_map_skel ev t.columnNameToIndexMapping
      (maxRowSpec t.data t.columns.length 0 0) (List.range t.columns.length)
      (applyData t.data t.columns 0) false
    have hh := congrArg List.length hsk
    rw [List.length_map, List.length_map, applyData_length] at hh
    exact hh
  rw [hlen1] at h2
  rw [compile_twice_columns ev t.columnNameToIndexMapping t.data t.columns href
    (maxRowSpec t.data t.columns.length 0 0)] at h2
  rw [h1]
  exact h2

/-- C1, counterexample to the claim as stated.  In `chainTable` the
calculated column A references the calculated column B declared after it:
the first compile reads B's not-yet-computed rows and stores `"ERROR"` at
(0,0), the second reads B's computed value and stores `"2"`, so two compiles
do not produce the same `getValue` results as one. -/
theorem compile_not_idempotent_with_calc_refs :
    ((chainTable.compile mathEvalModel).compile mathEvalModel).getValue? 0 0 ≠
      (chainTable.compile mathEvalModel).getValue? 0 0 := by decide

/-- C1, amended.  For every table whose raw data and column list are
unchanged between calls and whose calculated columns' resolved variable
references all point at non-calculated columns, compiling twice produces
identical `getValue` results to compiling once at every (row, column) pair.
(When a calculated column references another calculated column the two
passes can disagree, as the counterexample shows.) -/
theorem compile_idempotent_of_no_calc_refs (ev : String → Option String)
    (t : DataTable) (h : calcRefsNonCalc t = true) :
    ∀ r c : Nat, ((t.compile ev).compile ev).getValue? r c =
      (t.compile ev).getValue? r c := by
  intro r c
  rw [compile_compile_eq ev t h]

/-- C1, witness: the end-to-end example table's calculated column references
only data columns, and cell (0,2) reads the same after one and two
compiles. -/
theorem compile_idempotent_of_no_calc_refs_witness :
    calcRefsNonCalc exampleTable = true ∧
    ((exampleTable.compile mathEvalModel).compile mathEvalModel).getValue? 0 2 =
      (exampleTable.compile mathEvalModel).getValue? 0 2 :=
  ⟨by decide,
    compile_idempotent_of_no_calc_refs mathEvalModel exampleTable (by decide) 0 2⟩

end CalcCol
